import Mathlib

/-!
A verification development for the `uji` checklist tool (`uji.py`).

The relevant Python code is embedded shallowly:

* checkbox line handling of `UjiView` (`is_checkbox`, `mark`, `unmark`,
  `toggle`, the tail of `execute_command`);
* the actor/test matching of `UjiNew._link_tests_with_actors`;
* the `extends` merging of `ExtendedYaml.__process_extends`;
* the `include`/`version` handling of `ExtendedYaml.__process_includes`;
* the cursor/viewport reconciliation of `UjiView._update_cursor` and
  `UjiView._update_view`;
* the Markdown section parser exercised by `test_mdparser.py`
  (not shipped in this source tree; modelled from the design notes).

Lines of text buffers are modelled as `String`s without a trailing
newline; the regular expressions of the source are translated into
character-level matchers, which is faithful because every pattern in
scope is anchored (`re.match`) and the wildcard classes never have to
backtrack across the literal parts (whitespace is never `-`, and the
bracket block is fixed-width).
-/

/-- Python `\s` character class (ASCII + Unicode whitespace, which
`Char.isWhitespace` approximates for the documents in scope). -/
def isPySpace (c : Char) : Bool := c.isWhitespace

/-- `UjiView.is_checkbox`: `re.match(r'^\s*- \[[ xX]\].*', line)`.
The greedy `\s*` consumes the maximal whitespace run; since `-` is not
whitespace no backtracking can produce another match. -/
def is_checkbox (line : String) : Bool :=
  match line.data.dropWhile isPySpace with
  | '-' :: ' ' :: '[' :: c :: ']' :: _ => c = ' ' || c = 'x' || c = 'X'
  | _ => false

/-- The text rewrite of `UjiView.mark`:
`re.sub(r'^(\s*)- \[ \](.*)', r'\1- [x]\2', line)`.
Only the matched span is replaced, so any suffix (including a newline)
survives unchanged; on no match the line is returned as is. -/
def markText (line : String) : String :=
  match line.data.dropWhile isPySpace with
  | '-' :: ' ' :: '[' :: ' ' :: ']' :: tail =>
      ⟨line.data.takeWhile isPySpace ++ '-' :: ' ' :: '[' :: 'x' :: ']' :: tail⟩
  | _ => line

/-- The text rewrite of `UjiView.unmark`:
`re.sub(r'^(\s*)- \[[xX]\](.*)', r'\1- [ ]\2', line)`. -/
def unmarkText (line : String) : String :=
  match line.data.dropWhile isPySpace with
  | '-' :: ' ' :: '[' :: c :: ']' :: tail =>
      if c = 'x' || c = 'X' then
        ⟨line.data.takeWhile isPySpace ++ '-' :: ' ' :: '[' :: ' ' :: ']' :: tail⟩
      else line
  | _ => line

/-- The text effect of `UjiView.toggle` on a checkbox line: if the line
matches `^(\s*)- \[ \](.*)` it is marked, otherwise unmarked. -/
def toggleText (line : String) : String :=
  match line.data.dropWhile isPySpace with
  | '-' :: ' ' :: '[' :: ' ' :: ']' :: _ => markText line
  | _ => unmarkText line

/-- The keys of the `command_re` table in `UjiView.execute_command`, in
declaration order: the five output-mode shapes a command checkbox line
is matched against. -/
def commandTypeKeys : List String := ["attach", "human", "single", "multi", "exitcode"]

/-- The final dispatch of `UjiView.execute_command` (after the result
line has been inserted): returns `true` exactly when control falls
through to `self.mark()` / `self.next()`.  The chain compares against
the literal `"exit_code"`, `"attach"` and `"single"`; every other
`command_type` hits the `else: return` branch. -/
def cmdFinishMarks (commandType : String) : Bool :=
  if commandType = "exit_code" then true
  else if commandType = "attach" then true
  else if commandType = "single" then true
  else false

/-- End-of-run effect of `execute_command` on the command's checkbox
line: the line is rewritten by `mark()` only when the dispatch reaches
it; the second component records whether the cursor then advances via
`next()`. -/
def executeFinish (commandType : String) (line : String) : String × Bool :=
  if cmdFinishMarks commandType then (markText line, true) else (line, false)

/-! ## Actor/test matching (`UjiNew._link_tests_with_actors`) -/

/-- Python exceptions that can escape the matching loop. -/
inductive PyErr where
  | indexError
  deriving DecidableEq, Repr

/-- `UjiNew.Actor`, reduced to the fields the matching loop reads:
the section id and the `tags` mapping (tag name to tag value). -/
structure Actor where
  id : String
  tags : List (String × String)
  deriving DecidableEq, Repr

/-- `UjiNew.Test`, reduced to the fields the matching loop reads:
the section id and the `filter` mapping (tag name to value list). -/
structure Test where
  id : String
  filters : List (String × List String)
  deriving DecidableEq, Repr

/-- `UjiNew.Actor.default_actor()`: the synthetic generic actor,
id `generic`, no tags. -/
def defaultActor : Actor := ⟨"generic", []⟩

/-- Assoc-list lookup (Python `dict` lookup; keys are unique in data
coming out of the YAML parser, and lookup takes the first hit). -/
def alookup {β : Type} (k : String) : List (String × β) → Option β
  | [] => none
  | p :: rest => if p.1 = k then some p.2 else alookup k rest

/-- `v[0]` on a Python string: raises `IndexError` on the empty string. -/
def headChar (v : String) : Except PyErr Char :=
  match v.data with
  | [] => .error .indexError
  | c :: _ => .ok c

/-- `[v[1:] for v in values if v[0] == '!']` — evaluated left to right,
raising `IndexError` at the first empty string. -/
def excludedOf : List String → Except PyErr (List String)
  | [] => .ok []
  | v :: rest =>
      match headChar v with
      | .error e => .error e
      | .ok c =>
          match excludedOf rest with
          | .error e => .error e
          | .ok tail => .ok (if c = '!' then v.drop 1 :: tail else tail)

/-- `[v for v in values if v[0] != '!']`. -/
def requiredOf : List String → Except PyErr (List String)
  | [] => .ok []
  | v :: rest =>
      match headChar v with
      | .error e => .error e
      | .ok c =>
          match requiredOf rest with
          | .error e => .error e
          | .ok tail => .ok (if c ≠ '!' then v :: tail else tail)

/-- One iteration of the `for key, values in test.filters.items()` loop:
`.ok true` means the clause passed (no `break`), `.ok false` means the
loop `break`s on this clause.  Mirrors the statement order of the
source: membership test, `excluded` comprehension, exclusion test,
`required` comprehension, `__any__` degeneration, allowed test. -/
def filterClause (tags : List (String × String)) (key : String)
    (values : List String) : Except PyErr Bool :=
  match alookup key tags with
  | none => .ok false
  | some tag =>
      match excludedOf values with
      | .error e => .error e
      | .ok excluded =>
          if tag ∈ excluded then .ok false
          else
            match requiredOf values with
            | .error e => .error e
            | .ok required0 =>
                let required := if required0 = [] ∧ excluded ≠ [] then ["__any__"] else required0
                .ok (("__any__" ∈ required) || tag ∈ required)

/-- The whole `for ... else` filter loop of `_link_tests_with_actors`:
`.ok true` iff no clause `break`s (the `else:` branch runs and the test
is duplicated onto the actor).  A clause that `break`s stops evaluation
of the remaining clauses, exactly like the source. -/
def matchFilters (filters : List (String × List String))
    (tags : List (String × String)) : Except PyErr Bool :=
  match filters with
  | [] => .ok true
  | (key, values) :: rest =>
      match filterClause tags key values with
      | .error e => .error e
      | .ok ok1 => if ok1 then matchFilters rest tags else .ok false

/-- Whether one `(actor, test)` pair produces a `TestInstance`
(`dup = deepcopy(test)` appended to `actor.tests` and `all_tests`):
the body of the nested loops in `_link_tests_with_actors`. -/
def linkOne (actor : Actor) (test : Test) : Except PyErr Bool :=
  if actor.tags = [] then .ok (test.filters = [])
  else if test.filters = [] then .ok false
  else matchFilters test.filters actor.tags

/-- Inner loop: all instances a single actor receives, in test
declaration order, as `(actor id, test id)` pairs. -/
def linkActor (actor : Actor) : List Test → Except PyErr (List (String × String))
  | [] => .ok []
  | t :: rest =>
      match linkOne actor t with
      | .error e => .error e
      | .ok b =>
          match linkActor actor rest with
          | .error e => .error e
          | .ok tail => .ok (if b then (actor.id, t.id) :: tail else tail)

/-- `UjiNew._link_tests_with_actors`: actors in declaration order
(the generic actor first — `self.actors` is built with it first), tests
in declaration order; the returned list is `all_tests` as
`(actor id, test id)` pairs. -/
def linkTestsWithActors : List Actor → List Test → Except PyErr (List (String × String))
  | [], _ => .ok []
  | a :: rest, tests =>
      match linkActor a tests with
      | .error e => .error e
      | .ok here =>
          match linkTestsWithActors rest tests with
          | .error e => .error e
          | .ok tail => .ok (here ++ tail)

/-! Pure (error-free) counterparts, used to state properties of runs
that are known to succeed. -/

/-- Pure version of `excludedOf` (empty strings contribute nothing;
agrees with `excludedOf` whenever the latter succeeds). -/
def excludedP (values : List String) : List String :=
  (values.filter (fun v => v.data.head? = some '!')).map (·.drop 1)

/-- Pure version of `requiredOf`. -/
def requiredP (values : List String) : List String :=
  values.filter (fun v => v.data.head? ≠ some '!' ∧ v ≠ "")

/-- Pure version of `filterClause`. -/
def filterClauseB (tags : List (String × String)) (key : String)
    (values : List String) : Bool :=
  match alookup key tags with
  | none => false
  | some tag =>
      let excluded := excludedP values
      if tag ∈ excluded then false
      else
        let required := if requiredP values = [] ∧ excluded ≠ [] then ["__any__"] else requiredP values
        ("__any__" ∈ required) || tag ∈ required

/-- Pure version of `matchFilters`. -/
def matchFiltersB (filters : List (String × List String))
    (tags : List (String × String)) : Bool :=
  filters.all (fun f => filterClauseB tags f.1 f.2)

/-- Pure version of `linkOne`. -/
def linkOneB (actor : Actor) (test : Test) : Bool :=
  if actor.tags = [] then test.filters = []
  else if test.filters = [] then false
  else matchFiltersB test.filters actor.tags

/-- Pure version of `linkTestsWithActors`. -/
def linkPure (actors : List Actor) (tests : List Test) : List (String × String) :=
  actors.flatMap (fun a => (tests.filter (linkOneB a)).map (fun t => (a.id, t.id)))

/-- The matching rule exactly as claim C2 words it: for every filter
tag-name the actor has a value for, the value is not excluded, and when
any non-excluded value is listed (or only exclusions are listed, the
requirement degenerating to "any value not excluded") the value is in
the allowed (non-excluded, listed) set; a filter tag the actor lacks
means no match. -/
def specMatchC2 (filters : List (String × List String))
    (tags : List (String × String)) : Bool :=
  filters.all (fun f =>
    match alookup f.1 tags with
    | none => false
    | some tag =>
        tag ∉ excludedP f.2 ∧
        (requiredP f.2 ≠ [] → tag ∈ requiredP f.2))

/-! ## Theorems: command completion (C3) -/

/-- C3: the claim says every one of the five output modes
(`exitcode`, `single`, `multi`, `attach`, `human`) ends with the
checkbox marked and the cursor advanced.  The final dispatch of
`execute_command` compares against the misspelled literal
`"exit_code"`, which is not one of the `command_re` keys, so an
`exitcode` command (and likewise `multi` and `human`) falls into the
`else: return` branch: the line is left unmarked (still `- [ ]`) and
`next()` never runs.  Only `attach` and `single` reach `mark()`. -/
theorem c3_exitcode_never_marked :
    "exitcode" ∈ commandTypeKeys ∧
    "exit_code" ∉ commandTypeKeys ∧
    executeFinish "exitcode" "  - [ ] ⚙ `uname`" = ("  - [ ] ⚙ `uname`", false) ∧
    cmdFinishMarks "multi" = false ∧
    cmdFinishMarks "human" = false ∧
    cmdFinishMarks "attach" = true ∧
    cmdFinishMarks "single" = true := by
  refine ⟨by decide, by decide, ?_, by decide, by decide, by decide, by decide⟩
  decide

/-! ## Theorems: checkbox toggling (C7) -/

/-- A checkbox line, decomposed: whitespace indent, the bracket
character, and the rest of the line. -/
def cbLine (ws : List Char) (c : Char) (r : List Char) : String :=
  ⟨ws ++ '-' :: ' ' :: '[' :: c :: ']' :: r⟩

theorem ws_dropWhile (ws t : List Char) (h : ∀ c ∈ ws, isPySpace c = true) :
    (ws ++ '-' :: t).dropWhile isPySpace = '-' :: t := by
  induction ws with
  | nil => simp [List.dropWhile_cons, isPySpace]
  | cons c cs ih => simp_all [List.dropWhile_cons]

theorem ws_takeWhile (ws t : List Char) (h : ∀ c ∈ ws, isPySpace c = true) :
    (ws ++ '-' :: t).takeWhile isPySpace = ws := by
  induction ws with
  | nil => simp [List.takeWhile_cons, isPySpace]
  | cons c cs ih => simp_all [List.takeWhile_cons]

theorem markText_on (ws r : List Char) (c : Char) (h : ∀ ch ∈ ws, isPySpace ch = true) :
    markText (cbLine ws c r) = cbLine ws (if c = ' ' then 'x' else c) r := by
  by_cases hc : c = ' ' <;>
    simp [markText, cbLine, ws_dropWhile _ _ h, ws_takeWhile _ _ h, hc]

theorem unmarkText_on (ws r : List Char) (c : Char) (h : ∀ ch ∈ ws, isPySpace ch = true) :
    unmarkText (cbLine ws c r) = cbLine ws (if c = 'x' ∨ c = 'X' then ' ' else c) r := by
  by_cases hx : c = 'x' <;> by_cases hX : c = 'X' <;>
    simp [unmarkText, cbLine, ws_dropWhile _ _ h, ws_takeWhile _ _ h, hx, hX]

theorem toggleText_on (ws r : List Char) (c : Char) (h : ∀ ch ∈ ws, isPySpace ch = true) :
    toggleText (cbLine ws c r) =
      cbLine ws (if c = ' ' then 'x' else if c = 'x' ∨ c = 'X' then ' ' else c) r := by
  by_cases hc : c = ' '
  · subst hc
    simp only [toggleText, cbLine, ws_dropWhile _ _ h]
    simpa [cbLine] using markText_on ws r ' ' h
  · have hmatch : toggleText (cbLine ws c r) = unmarkText (cbLine ws c r) := by
      simp only [toggleText, cbLine, ws_dropWhile _ _ h]
      split
      · next heq =>
          exfalso
          simp only [List.cons.injEq] at heq
          exact hc heq.2.2.2.1
      · rfl
    rw [hmatch, unmarkText_on ws r c h]
    simp [hc]

/-- C7 (amended): on a checkbox line, `mark` rewrites the bracket from
`[ ]` to `[x]` and `unmark` from `[x]`/`[X]` to `[ ]`, leaving every
other byte unchanged; every line matching the checkbox pattern has
this indent/bracket/rest decomposition; and toggling twice restores
the original bytes for the brackets the renderer emits (`[ ]` and the
lowercase `[x]`) — but not for a capital `[X]`, which the round trip
normalises to `[x]` (see the counterexample). -/
theorem c7_toggle_round_trip :
    (∀ l, is_checkbox l = true → ∃ ws c r,
        (∀ ch ∈ ws, isPySpace ch = true) ∧ (c = ' ' ∨ c = 'x' ∨ c = 'X') ∧
        l = cbLine ws c r) ∧
    (∀ ws r c, (∀ ch ∈ ws, isPySpace ch = true) → (c = ' ' ∨ c = 'x' ∨ c = 'X') →
        markText (cbLine ws c r) = cbLine ws (if c = ' ' then 'x' else c) r ∧
        unmarkText (cbLine ws c r) = cbLine ws ' ' r ∧
        (c ≠ 'X' → toggleText (toggleText (cbLine ws c r)) = cbLine ws c r)) := by
  constructor
  · intro l hl
    unfold is_checkbox at hl
    split at hl
    · next c' tail heq =>
      refine ⟨l.data.takeWhile isPySpace, c', tail, ?_, ?_, ?_⟩
      · intro ch hch
        exact List.mem_takeWhile_imp hch
      · have := hl
        simp at this
        tauto
      · have hsplit : l.data = l.data.takeWhile isPySpace ++ l.data.dropWhile isPySpace :=
          (List.takeWhile_append_dropWhile isPySpace l.data).symm
        rw [heq] at hsplit
        exact congrArg String.mk hsplit
    · exact absurd hl (by simp)
  · intro ws r c hws hc
    refine ⟨markText_on ws r c hws, ?_, ?_⟩
    · rw [unmarkText_on ws r c hws]
      rcases hc with h | h | h <;> simp [h]
    · intro hX
      rcases hc with h | h | h
      · subst h
        rw [toggleText_on ws r ' ' hws]
        simpa using toggleText_on ws r 'x' hws
      · subst h
        rw [toggleText_on ws r 'x' hws]
        simpa using toggleText_on ws r ' ' hws
      · exact absurd h hX

/-- C7 witness: concrete instantiation of the round-trip theorem at the
line `  - [ ] verify boot`. -/
theorem c7_toggle_round_trip_witness :
    markText (cbLine [' ', ' '] ' ' " verify boot".data) =
        cbLine [' ', ' '] (if ' ' = ' ' then 'x' else ' ') " verify boot".data ∧
    unmarkText (cbLine [' ', ' '] ' ' " verify boot".data) = cbLine [' ', ' '] ' ' " verify boot".data ∧
    (' ' ≠ 'X' → toggleText (toggleText (cbLine [' ', ' '] ' ' " verify boot".data)) =
        cbLine [' ', ' '] ' ' " verify boot".data) :=
  c7_toggle_round_trip.2 [' ', ' '] " verify boot".data ' ' (by decide) (Or.inl rfl)

/-- C7 counterexample: a checkbox rendered with a capital `X` is a line
matching the checkbox pattern, yet toggling it twice does not return
the original byte sequence — `unmark` maps `[X]` to `[ ]` and the
subsequent `mark` produces the lowercase `[x]`. -/
theorem c7_capital_x_not_restored :
    is_checkbox "- [X] verify" = true ∧
    toggleText (toggleText "- [X] verify") ≠ "- [X] verify" ∧
    toggleText (toggleText "- [X] verify") = "- [x] verify" := by
  refine ⟨by decide, by decide, by decide⟩

/-! ## Bridging lemmas: raising vs. pure matching -/

theorem headChar_ok (v : String) (c : Char) (h : headChar v = .ok c) :
    v.data.head? = some c ∧ v ≠ "" := by
  unfold headChar at h
  cases hv : v.data with
  | nil => rw [hv] at h; exact absurd h (by simp)
  | cons c' rest =>
      rw [hv] at h
      simp only [Except.ok.injEq] at h
      subst h
      refine ⟨by simp [hv], ?_⟩
      intro he
      rw [he] at hv
      exact absurd hv (by simp)

theorem excludedP_cons (v : String) (rest : List String) :
    excludedP (v :: rest) =
      if v.data.head? = some '!' then v.drop 1 :: excludedP rest else excludedP rest := by
  by_cases hp : v.data.head? = some '!' <;> simp [excludedP, List.filter_cons, hp]

theorem requiredP_cons (v : String) (rest : List String) :
    requiredP (v :: rest) =
      if v.data.head? ≠ some '!' ∧ v ≠ "" then v :: requiredP rest else requiredP rest := by
  by_cases h1 : v.data.head? = some '!' <;> by_cases h2 : v = "" <;>
    simp [requiredP, List.filter_cons, h1, h2]

theorem excludedOf_ok (vs : List String) (e : List String) (h : excludedOf vs = .ok e) :
    e = excludedP vs ∧ ∀ v ∈ vs, v ≠ "" := by
  induction vs generalizing e with
  | nil =>
      simp only [excludedOf, Except.ok.injEq] at h
      simp [← h, excludedP]
  | cons v rest ih =>
      simp only [excludedOf] at h
      cases hh : headChar v with
      | error err => rw [hh] at h; exact absurd h (by simp)
      | ok c =>
          rw [hh] at h
          cases ht : excludedOf rest with
          | error err => rw [ht] at h; exact absurd h (by simp)
          | ok tail =>
              rw [ht] at h
              simp only [Except.ok.injEq] at h
              obtain ⟨htail, hne⟩ := ih tail ht
              obtain ⟨hhead, hv⟩ := headChar_ok v c hh
              subst htail
              constructor
              · rw [← h, excludedP_cons]
                by_cases hc : c = '!' <;> simp [hc, hhead]
              · intro v' hv'
                cases hv' with
                | head => exact hv
                | tail _ htl => exact hne _ htl

theorem requiredOf_ok (vs : List String) (e : List String) (h : requiredOf vs = .ok e) :
    e = requiredP vs := by
  induction vs generalizing e with
  | nil =>
      simp only [requiredOf, Except.ok.injEq] at h
      simp [← h, requiredP]
  | cons v rest ih =>
      simp only [requiredOf] at h
      cases hh : headChar v with
      | error err => rw [hh] at h; exact absurd h (by simp)
      | ok c =>
          rw [hh] at h
          cases ht : requiredOf rest with
          | error err => rw [ht] at h; exact absurd h (by simp)
          | ok tail =>
              rw [ht] at h
              simp only [Except.ok.injEq] at h
              obtain ⟨hhead, hv⟩ := headChar_ok v c hh
              rw [← h, requiredP_cons, ih tail ht]
              by_cases hc : c = '!' <;> simp [hc, hhead, hv]

theorem headChar_total (v : String) (hv : v ≠ "") :
    ∃ c, headChar v = .ok c ∧ v.data.head? = some c := by
  cases hd : v.data with
  | nil => exact absurd (String.ext hd) hv
  | cons a b =>
      refine ⟨a, ?_, by simp [hd]⟩
      unfold headChar
      rw [hd]

theorem excludedOf_total (vs : List String) (h : ∀ v ∈ vs, v ≠ "") :
    excludedOf vs = .ok (excludedP vs) := by
  induction vs with
  | nil => simp [excludedOf, excludedP]
  | cons v rest ih =>
      have hv : v ≠ "" := h v (by simp)
      obtain ⟨c, hh, hc⟩ := headChar_total v hv
      simp only [excludedOf, hh, ih (fun v' hv' => h v' (by simp [hv']))]
      rw [excludedP_cons]
      by_cases hbang : c = '!' <;> simp [hbang, hc]

theorem requiredOf_total (vs : List String) (h : ∀ v ∈ vs, v ≠ "") :
    requiredOf vs = .ok (requiredP vs) := by
  induction vs with
  | nil => simp [requiredOf, requiredP]
  | cons v rest ih =>
      have hv : v ≠ "" := h v (by simp)
      obtain ⟨c, hh, hc⟩ := headChar_total v hv
      simp only [requiredOf, hh, ih (fun v' hv' => h v' (by simp [hv']))]
      rw [requiredP_cons]
      by_cases hbang : c = '!' <;> simp [hbang, hc, hv]

theorem filterClause_ok (tags : List (String × String)) (key : String)
    (values : List String) (b : Bool) (h : filterClause tags key values = .ok b) :
    b = filterClauseB tags key values := by
  unfold filterClause at h
  unfold filterClauseB
  cases halk : alookup key tags with
  | none => rw [halk] at h; simpa using h.symm
  | some tag =>
      rw [halk] at h
      cases he : excludedOf values with
      | error err => rw [he] at h; exact absurd h (by simp)
      | ok excl =>
          obtain ⟨hee, hne⟩ := excludedOf_ok values excl he
          subst hee
          rw [he] at h
          dsimp at h ⊢
          by_cases hmem : tag ∈ excludedP values
          · rw [if_pos hmem] at h ⊢
            simpa using h.symm
          · rw [if_neg hmem] at h ⊢
            rw [requiredOf_total values hne] at h
            dsimp at h
            simpa using h.symm

theorem filterClause_total (tags : List (String × String)) (key : String)
    (values : List String) (hne : ∀ v ∈ values, v ≠ "") :
    filterClause tags key values = .ok (filterClauseB tags key values) := by
  unfold filterClause filterClauseB
  cases halk : alookup key tags with
  | none => rfl
  | some tag =>
      rw [excludedOf_total values hne]
      dsimp
      by_cases hmem : tag ∈ excludedP values
      · rw [if_pos hmem, if_pos hmem]
      · rw [if_neg hmem, if_neg hmem, requiredOf_total values hne]

theorem matchFilters_ok (filters : List (String × List String))
    (tags : List (String × String)) (b : Bool)
    (h : matchFilters filters tags = .ok b) : matchFiltersB filters tags = b := by
  induction filters generalizing b with
  | nil => simp only [matchFilters, Except.ok.injEq] at h; simp [matchFiltersB, ← h]
  | cons f rest ih =>
      obtain ⟨key, values⟩ := f
      simp only [matchFilters] at h
      cases hc : filterClause tags key values with
      | error err => rw [hc] at h; exact absurd h (by simp)
      | ok b1 =>
          rw [hc] at h
          have hb1 := filterClause_ok tags key values b1 hc
          dsimp at h
          by_cases h1 : b1 = true
          · rw [if_pos h1] at h
            have := ih b h
            simp only [matchFiltersB] at this ⊢
            simp [List.all_cons, ← hb1, h1, this]
          · rw [if_neg h1] at h
            simp only [Except.ok.injEq] at h
            simp only [Bool.not_eq_true] at h1
            simp [matchFiltersB, List.all_cons, ← hb1, h1, ← h]

theorem matchFilters_total (filters : List (String × List String))
    (tags : List (String × String))
    (hne : ∀ f ∈ filters, ∀ v ∈ f.2, v ≠ "") :
    matchFilters filters tags = .ok (matchFiltersB filters tags) := by
  induction filters with
  | nil => simp [matchFilters, matchFiltersB]
  | cons f rest ih =>
      obtain ⟨key, values⟩ := f
      simp only [matchFilters, filterClause_total tags key values (hne (key, values) (by simp))]
      have ihr := ih (fun f' hf' => hne f' (by simp [hf']))
      by_cases h1 : filterClauseB tags key values = true
      · simp [h1, ihr, matchFiltersB, List.all_cons]
      · simp only [Bool.not_eq_true] at h1
        simp [h1, matchFiltersB, List.all_cons]

theorem linkOne_ok (a : Actor) (t : Test) (b : Bool) (h : linkOne a t = .ok b) :
    linkOneB a t = b := by
  unfold linkOne at h
  unfold linkOneB
  by_cases h1 : a.tags = []
  · rw [if_pos h1] at h ⊢
    simp only [Except.ok.injEq] at h
    exact h
  · rw [if_neg h1] at h ⊢
    by_cases h2 : t.filters = []
    · rw [if_pos h2] at h ⊢
      simp only [Except.ok.injEq] at h
      exact h
    · rw [if_neg h2] at h ⊢
      exact matchFilters_ok _ _ _ h

theorem linkOne_total (a : Actor) (t : Test)
    (hne : ∀ f ∈ t.filters, ∀ v ∈ f.2, v ≠ "") :
    linkOne a t = .ok (linkOneB a t) := by
  unfold linkOne linkOneB
  by_cases h1 : a.tags = []
  · rw [if_pos h1, if_pos h1]
  · rw [if_neg h1, if_neg h1]
    by_cases h2 : t.filters = []
    · rw [if_pos h2, if_pos h2]
    · rw [if_neg h2, if_neg h2]
      exact matchFilters_total _ _ hne

theorem linkActor_ok (a : Actor) (tests : List Test) (l : List (String × String))
    (h : linkActor a tests = .ok l) :
    l = (tests.filter (linkOneB a)).map (fun t => (a.id, t.id)) := by
  induction tests generalizing l with
  | nil => simp only [linkActor, Except.ok.injEq] at h; simp [← h]
  | cons t rest ih =>
      simp only [linkActor] at h
      cases h1 : linkOne a t with
      | error err => rw [h1] at h; exact absurd h (by simp)
      | ok b =>
          rw [h1] at h
          cases h2 : linkActor a rest with
          | error err => rw [h2] at h; exact absurd h (by simp)
          | ok tail =>
              rw [h2] at h
              simp only [Except.ok.injEq] at h
              have hb := linkOne_ok a t b h1
              rw [← h, ih tail h2, List.filter_cons, ← hb]
              by_cases hbt : linkOneB a t = true
              · simp [hbt]
              · simp only [Bool.not_eq_true] at hbt; simp [hbt]

theorem linkActor_total (a : Actor) (tests : List Test)
    (hne : ∀ t ∈ tests, ∀ f ∈ t.filters, ∀ v ∈ f.2, v ≠ "") :
    linkActor a tests = .ok ((tests.filter (linkOneB a)).map (fun t => (a.id, t.id))) := by
  induction tests with
  | nil => simp [linkActor]
  | cons t rest ih =>
      simp only [linkActor, linkOne_total a t (hne t (by simp))]
      rw [ih (fun t' ht' => hne t' (by simp [ht']))]
      rw [List.filter_cons]
      by_cases hbt : linkOneB a t = true
      · simp [hbt]
      · simp only [Bool.not_eq_true] at hbt; simp [hbt]

theorem linkTests_ok (actors : List Actor) (tests : List Test)
    (l : List (String × String)) (h : linkTestsWithActors actors tests = .ok l) :
    l = linkPure actors tests := by
  induction actors generalizing l with
  | nil => simp only [linkTestsWithActors, Except.ok.injEq] at h; simp [← h, linkPure]
  | cons a rest ih =>
      simp only [linkTestsWithActors] at h
      cases h1 : linkActor a tests with
      | error err => rw [h1] at h; exact absurd h (by simp)
      | ok here =>
          rw [h1] at h
          cases h2 : linkTestsWithActors rest tests with
          | error err => rw [h2] at h; exact absurd h (by simp)
          | ok tail =>
              rw [h2] at h
              simp only [Except.ok.injEq] at h
              rw [← h, linkActor_ok a tests here h1, ih tail h2]
              simp [linkPure]

theorem linkTests_total (actors : List Actor) (tests : List Test)
    (hne : ∀ t ∈ tests, ∀ f ∈ t.filters, ∀ v ∈ f.2, v ≠ "") :
    linkTestsWithActors actors tests = .ok (linkPure actors tests) := by
  induction actors with
  | nil => simp [linkTestsWithActors, linkPure]
  | cons a rest ih =>
      simp only [linkTestsWithActors, linkActor_total a tests hne, ih]
      simp [linkPure]

/-! ## Theorems: test/actor assignment (C1, C2, C10) -/

/-- The effective `required` list after the `__any__` degeneration of
the source (`if not required and excluded: required = ['__any__']`). -/
def reqList (values : List String) : List String :=
  if requiredP values = [] ∧ excludedP values ≠ [] then ["__any__"] else requiredP values

theorem filterClauseB_eq_true (tags : List (String × String)) (key : String)
    (values : List String) :
    filterClauseB tags key values = true ↔
      ∃ tag, alookup key tags = some tag ∧ tag ∉ excludedP values ∧
        ("__any__" ∈ reqList values ∨ tag ∈ reqList values) := by
  unfold filterClauseB reqList
  cases halk : alookup key tags with
  | none => simp
  | some tag =>
      dsimp
      by_cases hmem : tag ∈ excludedP values
      · simp [hmem]
      · simp [hmem]

/-- C1 counterexample: one declared actor section `a1` with no tags and
one filter-less test `t1`.  The claim requires exactly one instance of
`t1`, bound to the generic actor, with no declared section receiving
one — but the code duplicates `t1` onto every actor without tags, so
the declared section `a1` receives a second instance. -/
theorem c1_tagless_actor_duplicates :
    linkTestsWithActors [defaultActor, ⟨"a1", []⟩] [⟨"t1", []⟩] =
      .ok [("generic", "t1"), ("a1", "t1")] ∧
    ("a1", "t1") ∈ [(("generic" : String), ("t1" : String)), ("a1", "t1")] := by
  exact ⟨rfl, by decide⟩

/-- C1 (amended): a test with no filters is duplicated onto every actor
whose tag mapping is empty; hence, **when every declared actor declares
at least one tag**, each filter-less test yields exactly one
`TestInstance`, bound to the synthetic generic actor, and no declared
actor receives one. -/
theorem c1_filterless_only_generic
    (declared : List Actor) (tests : List Test) (t : Test) (l : List (String × String))
    (htag : ∀ a ∈ declared, a.tags ≠ [])
    (hok : linkTestsWithActors (defaultActor :: declared) tests = .ok l)
    (ht : t ∈ tests) (hfilt : t.filters = [])
    (huniq : tests.filter (fun t' => t'.id = t.id) = [t]) :
    l.filter (fun p => p.2 = t.id) = [("generic", t.id)] := by
  rw [linkTests_ok _ _ _ hok]
  unfold linkPure
  rw [List.flatMap_cons, List.filter_append]
  have hgen : ((tests.filter (linkOneB defaultActor)).map
      (fun t' => (defaultActor.id, t'.id))).filter (fun p => p.2 = t.id) =
      [("generic", t.id)] := by
    rw [List.filter_map]
    have hcomm : (tests.filter (linkOneB defaultActor)).filter
        ((fun p => (p.2 = t.id : Bool)) ∘ (fun t' => (defaultActor.id, t'.id))) =
        (tests.filter (fun t' => t'.id = t.id)).filter (linkOneB defaultActor) := by
      rw [List.filter_filter, List.filter_filter]
      exact List.filter_congr (fun a _ => Bool.and_comm _ _)
    have hlt : linkOneB defaultActor t = true := by
      unfold linkOneB defaultActor
      simp [hfilt]
    rw [hcomm, huniq, List.filter_cons, if_pos hlt]
    simp [defaultActor]
  have hdecl : (declared.flatMap (fun a => (tests.filter (linkOneB a)).map
      (fun t' => (a.id, t'.id)))).filter (fun p => p.2 = t.id) = [] := by
    rw [List.filter_flatMap]
    rw [List.flatMap_eq_nil_iff]
    intro a ha
    rw [List.filter_map, List.map_eq_nil_iff, List.filter_eq_nil_iff]
    intro t' ht'
    intro hid
    simp only [Function.comp, decide_eq_true_eq] at hid
    rw [List.mem_filter] at ht'
    have hteq : t' = t := by
      have : t' ∈ tests.filter (fun t' => t'.id = t.id) := by
        rw [List.mem_filter]
        exact ⟨ht'.1, by simpa using hid⟩
      rw [huniq] at this
      simpa using this
    subst hteq
    have : linkOneB a t' = false := by
      unfold linkOneB
      rw [if_neg (htag a ha), hfilt]
      simp
    rw [this] at ht'
    exact absurd ht'.2 (by simp)
  rw [hgen, hdecl]
  simp

/-- C1 witness: a tagged declared actor, a filter-less test `t1` and a
filtered test `t2`; `t1`'s only instance is bound to the generic
actor. -/
theorem c1_filterless_only_generic_witness :
    ([(("generic" : String), ("t1" : String)), ("a1", "t2")].filter
        (fun p => p.2 = "t1")) = [("generic", "t1")] :=
  c1_filterless_only_generic [⟨"a1", [("tag", "v")]⟩]
    [⟨"t1", []⟩, ⟨"t2", [("tag", ["v"])]⟩] ⟨"t1", []⟩
    [("generic", "t1"), ("a1", "t2")]
    (by decide) rfl (by decide) rfl (by decide)

/-- C2 counterexample: the literal filter value `__any__` acts as a
wildcard in the code (`'__any__' not in required and ...`), so a test
with filter value list `["__any__"]` is instantiated for an actor whose
tag value is not in the listed (allowed) set — the claim's
"if and only if ... the actor's value is in the allowed set" is false
at this input (`specMatchC2` is the claim's rule verbatim). -/
theorem c2_any_wildcard :
    matchFilters [("tag1", ["__any__"])] [("tag1", "other")] = .ok true ∧
    specMatchC2 [("tag1", ["__any__"])] [("tag1", "other")] = false ∧
    linkTestsWithActors [defaultActor, ⟨"A", [("tag1", "other")]⟩]
      [⟨"T", [("tag1", ["__any__"])]⟩] = .ok [("A", "T")] := by
  exact ⟨rfl, by decide, rfl⟩

/-- C2 (amended): for a test with filters and an actor with tags (no
empty value strings), the test is instantiated for the actor iff every
filter tag-name has an actor value that is not excluded and — after the
degeneration of an all-exclusion list to the wildcard — lies in the
allowed set or the wildcard `__any__` is listed.  The concrete part of
the claim holds: filter `tag1: [value1]` matches an actor with
`tag1: value1` and not one with `tag1: value2`. -/
theorem c2_filter_matching :
    (∀ (filters : List (String × List String)) (tags : List (String × String)),
      (∀ f ∈ filters, ∀ v ∈ f.2, v ≠ "") →
      (matchFilters filters tags = .ok true ↔
        ∀ f ∈ filters, ∃ tag, alookup f.1 tags = some tag ∧
          tag ∉ excludedP f.2 ∧
          ("__any__" ∈ reqList f.2 ∨ tag ∈ reqList f.2))) ∧
    linkTestsWithActors
      [defaultActor, ⟨"A", [("tag1", "value1")]⟩, ⟨"B", [("tag1", "value2")]⟩]
      [⟨"T", [("tag1", ["value1"])]⟩] = .ok [("A", "T")] := by
  constructor
  · intro filters tags hne
    rw [matchFilters_total filters tags hne]
    constructor
    · intro h
      simp only [Except.ok.injEq] at h
      rw [matchFiltersB, List.all_eq_true] at h
      intro f hf
      exact (filterClauseB_eq_true tags f.1 f.2).mp (h f hf)
    · intro h
      have : matchFiltersB filters tags = true := by
        rw [matchFiltersB, List.all_eq_true]
        intro f hf
        exact (filterClauseB_eq_true tags f.1 f.2).mpr (h f hf)
      rw [this]
  · rfl

/-- C2 witness: concrete instantiation of the matching
characterisation at the filter `tag1: [value1]` and an actor with
`tag1: value1`. -/
theorem c2_filter_matching_witness :
    matchFilters [("tag1", ["value1"])] [("tag1", "value1")] = .ok true ↔
      ∀ f ∈ [(("tag1" : String), ["value1"])], ∃ tag,
        alookup f.1 [(("tag1" : String), ("value1" : String))] = some tag ∧
        tag ∉ excludedP f.2 ∧
        ("__any__" ∈ reqList f.2 ∨ tag ∈ reqList f.2) :=
  c2_filter_matching.1 [("tag1", ["value1"])] [("tag1", "value1")] (by decide)

/-- C10: matching reads `v[0]` of every filter value it examines, so
linking is total whenever all filter values are non-empty strings
(first conjunct), while a document whose filter value list contains the
empty string makes the whole compilation fail with an `IndexError`
instead of producing an assignment (second conjunct). -/
theorem c10_empty_filter_value :
    (∀ (actors : List Actor) (tests : List Test),
        (∀ t ∈ tests, ∀ f ∈ t.filters, ∀ v ∈ f.2, v ≠ "") →
        linkTestsWithActors actors tests = .ok (linkPure actors tests)) ∧
    linkTestsWithActors [⟨"a", [("tag", "v")]⟩] [⟨"T", [("tag", [""])]⟩] =
      .error .indexError := by
  exact ⟨fun actors tests hne => linkTests_total actors tests hne, rfl⟩

/-- C10 witness: the totality statement applied to a concrete tagged
actor and a concrete non-empty filter value. -/
theorem c10_empty_filter_value_witness :
    linkTestsWithActors [⟨"a", [("tag", "v")]⟩] [⟨"T", [("tag", ["v"])]⟩] =
      .ok (linkPure [⟨"a", [("tag", "v")]⟩] [⟨"T", [("tag", ["v"])]⟩]) :=
  c10_empty_filter_value.1 [⟨"a", [("tag", "v")]⟩] [⟨"T", [("tag", ["v"])]⟩] (by decide)

/-! ## `extends` merging (`ExtendedYaml.__process_extends`) -/

/-- A YAML value as the merge code distinguishes them at runtime:
strings, integers, lists and dicts (`type(a) != type(b)`). -/
inductive YVal where
  | s (v : String)
  | i (v : Int)
  | list (l : List YVal)
  | map (m : List (String × YVal))

/-- The runtime class tag compared by `merge`'s `type(a) != type(b)`. -/
def YVal.tag : YVal → Nat
  | .s _ => 0
  | .i _ => 1
  | .list _ => 2
  | .map _ => 3

/-- Python truthiness of a YAML value (the `if not referenced` guard). -/
def YVal.falsy : YVal → Bool
  | .s v => v = ""
  | .i v => v = 0
  | .list l => l.isEmpty
  | .map m => m.isEmpty

/-- Python dict assignment `d[k] = v`: an existing key keeps its
position and gets the new value, a new key is appended at the end. -/
def setKey (m : List (String × YVal)) (k : String) (v : YVal) : List (String × YVal) :=
  if (alookup k m).isSome then m.map (fun p => if p.1 = k then (k, v) else p)
  else m ++ [(k, v)]

/-- The dict branch of `merge`: `merged = {}`; insert all of `a`, then
all of `b` (a later assignment overwrites in place).  Starting the fold
from `a` is the same as inserting `a`'s pairs into an empty dict, since
a parsed YAML mapping has unique keys. -/
def unionMap (a b : List (String × YVal)) : List (String × YVal) :=
  b.foldl (fun acc p => setKey acc p.1 p.2) a

/-- `merge(a, b)` of `__process_extends`: `ValueError` on differing
runtime types, lists concatenate (base elements first), dicts form a
union with the newer value winning, any other value is replaced by the
new one. -/
def mergeVals : YVal → YVal → Except Unit YVal
  | .list x, .list y => .ok (.list (x ++ y))
  | .map x, .map y => .ok (.map (unionMap x y))
  | .s _, .s y => .ok (.s y)
  | .i _, .i y => .ok (.i y)
  | _, _ => .error ()

/-- Errors escaping `__process_extends` (`YamlError`s, plus the
`TypeError` Python would raise when subscripting a non-dict base). -/
inductive ExtErr where
  | invalidRef (sec : String)
  | typeMismatch (item sec referenced : String)
  | subscriptError
  deriving DecidableEq, Repr

/-- One iteration of the `for item, value in data.items()` loop:
`combined[item] = value`, or `merge` when the base already has the
key, with `ValueError` converted to the `Mismatched types for {item}
in {section} vs {referenced}` error. -/
def extendField (combined : YVal) (item : String) (v : YVal) (sec ref : String) :
    Except ExtErr YVal :=
  match combined with
  | .map cf =>
      match alookup item cf with
      | none => .ok (.map (setKey cf item v))
      | some base =>
          match mergeVals base v with
          | .ok m => .ok (.map (setKey cf item m))
          | .error _ => .error (.typeMismatch item sec ref)
  | _ => .error .subscriptError

/-- The whole `for item, value in data.items()` loop over the
extending section's fields, skipping the `extends` key itself. -/
def foldFields (combined : YVal) (fields : List (String × YVal)) (sec ref : String) :
    Except ExtErr YVal :=
  match fields with
  | [] => .ok combined
  | (k, v) :: rest =>
      if k = "extends" then foldFields combined rest sec ref
      else
        match extendField combined k v sec ref with
        | .error e => .error e
        | .ok comb => foldFields comb rest sec ref

/-- The string case of the `extends` reference: raise unless the name
is an existing key different from the section itself, then merge. -/
def processRefName (doc : List (String × YVal)) (sec : String)
    (fields : List (String × YVal)) (name : String) :
    Except ExtErr (List (String × YVal)) :=
  if (alookup name doc).isNone ∨ name = sec then .error (.invalidRef sec)
  else
    match alookup name doc with
    | none => .error (.invalidRef sec)
    | some base0 =>
        match foldFields base0 fields sec name with
        | .error e => .error e
        | .ok combined => .ok (setKey doc sec combined)

/-- Dispatch on the runtime type of the `extends` value: a non-string
truthy value can never equal a (string) key of the document, so the
`referenced not in yaml` test raises for it. -/
def processRefVal (doc : List (String × YVal)) (sec : String)
    (fields : List (String × YVal)) : YVal → Except ExtErr (List (String × YVal))
  | .s name => processRefName doc sec fields name
  | _ => .error (.invalidRef sec)

/-- `referenced = data.get('extends'); if not referenced: continue`. -/
def processRef (doc : List (String × YVal)) (sec : String)
    (fields : List (String × YVal)) : Option YVal → Except ExtErr (List (String × YVal))
  | none => .ok doc
  | some r => if r.falsy then .ok doc else processRefVal doc sec fields r

/-- Processing of one top-level section in `__process_extends`:
non-dict sections and sections with no (or falsy) `extends` value are
skipped; a reference that is not an existing key, or is the section
itself, raises `Invalid section for "extends: ..."`; otherwise the
referenced section's (deep-copied) value is extended field by field
and stored back under the section's key. -/
def processOne (doc : List (String × YVal)) (sec : String) :
    YVal → Except ExtErr (List (String × YVal))
  | .map fields => processRef doc sec fields (alookup "extends" fields)
  | _ => .ok doc

/-- The `for section, data in list(yaml.items())` loop: the iteration
order is a snapshot of the original document, while lookups and the
`yaml[section] = combined` write-back act on the current document. -/
def processExtendsAux (snapshot doc : List (String × YVal)) :
    Except ExtErr (List (String × YVal)) :=
  match snapshot with
  | [] => .ok doc
  | (sec, data) :: rest =>
      match processOne doc sec data with
      | .error e => .error e
      | .ok doc' => processExtendsAux rest doc'

/-- `ExtendedYaml.__process_extends`. -/
def processExtends (doc : List (String × YVal)) : Except ExtErr (List (String × YVal)) :=
  processExtendsAux doc doc

theorem alookup_append {β : Type} (m tl : List (String × β)) (k : String) :
    alookup k (m ++ tl) = if (alookup k m).isSome then alookup k m else alookup k tl := by
  induction m with
  | nil => simp [alookup]
  | cons p rest ih =>
      by_cases hp : p.1 = k <;> simp [alookup, hp, ih]

theorem alookup_map_overwrite (m : List (String × YVal)) (k k' : String) (v : YVal) :
    alookup k' (m.map (fun p => if p.1 = k then (k, v) else p)) =
      if k' = k then (if (alookup k m).isSome then some v else none)
      else alookup k' m := by
  induction m with
  | nil => by_cases h : k' = k <;> simp [alookup, h]
  | cons p rest ih =>
      by_cases hp : p.1 = k
      · simp only [List.map_cons, if_pos hp, alookup, if_pos hp]
        by_cases hk : k = k'
        · simp [if_pos hk, hk]
        · rw [if_neg hk, ih]
          have hk' : ¬ k' = k := fun h => hk h.symm
          rw [if_neg hk', if_neg hk']
          have : ¬ p.1 = k' := by rw [hp]; exact hk
          rw [if_neg this]
      · simp only [List.map_cons, if_neg hp, alookup, if_neg hp]
        by_cases hpk' : p.1 = k'
        · have hk'k : ¬ k' = k := fun h => hp (hpk'.trans h)
          rw [if_pos hpk', if_neg hk'k, if_pos hpk']
        · rw [if_neg hpk', if_neg hpk', ih]

theorem alookup_setKey {m : List (String × YVal)} {k k' : String} {v : YVal} :
    alookup k' (setKey m k v) = if k' = k then some v else alookup k' m := by
  unfold setKey
  by_cases hs : (alookup k m).isSome
  · rw [if_pos hs, alookup_map_overwrite, if_pos hs]
  · rw [if_neg hs, alookup_append]
    rw [Option.not_isSome_iff_eq_none] at hs
    by_cases hk : k' = k
    · rw [if_pos hk, hk, hs]
      simp [alookup]
    · rw [if_neg hk]
      by_cases hsk : (alookup k' m).isSome
      · rw [if_pos hsk]
      · rw [Option.not_isSome_iff_eq_none] at hsk
        rw [if_neg (by rw [hsk]; simp), hsk]
        have hkk : ¬ k = k' := fun h => hk h.symm
        simp [alookup, hkk]

theorem alookup_eq_none_of_not_mem {β : Type} (k : String) (m : List (String × β))
    (h : k ∉ m.map Prod.fst) : alookup k m = none := by
  induction m with
  | nil => rfl
  | cons p rest ih =>
      simp only [List.map_cons, List.mem_cons] at h
      push_neg at h
      simp only [alookup]
      rw [if_neg (fun he => h.1 he.symm)]
      exact ih h.2

theorem alookup_unionMap (a b : List (String × YVal)) (k : String)
    (hb : (b.map Prod.fst).Nodup) :
    alookup k (unionMap a b) =
      if (alookup k b).isSome then alookup k b else alookup k a := by
  unfold unionMap
  induction b generalizing a with
  | nil => simp [alookup]
  | cons p rest ih =>
      obtain ⟨k0, v0⟩ := p
      simp only [List.map_cons, List.nodup_cons] at hb
      simp only [List.foldl_cons]
      rw [ih (setKey a k0 v0) hb.2]
      by_cases hk : k = k0
      · subst hk
        rw [alookup_eq_none_of_not_mem k rest hb.1]
        simp [alookup, alookup_setKey]
      · simp only [alookup]
        rw [if_neg (show ¬ k0 = k from fun h => hk h.symm)]
        by_cases hsk : (alookup k rest).isSome
        · rw [if_pos hsk, if_pos hsk]
        · rw [if_neg hsk, if_neg hsk, alookup_setKey, if_neg hk]

theorem foldFields_isMap (fields : List (String × YVal)) (acc : List (String × YVal))
    (sec ref : String) (y : YVal)
    (hok : foldFields (.map acc) fields sec ref = .ok y) : ∃ mf, y = .map mf := by
  induction fields generalizing acc with
  | nil =>
      simp only [foldFields, Except.ok.injEq] at hok
      exact ⟨acc, hok.symm⟩
  | cons f rest ih =>
      obtain ⟨k0, v0⟩ := f
      simp only [foldFields] at hok
      by_cases hext : k0 = "extends"
      · rw [if_pos hext] at hok
        exact ih acc hok
      · rw [if_neg hext] at hok
        cases hef : extendField (.map acc) k0 v0 sec ref with
        | error e => rw [hef] at hok; exact absurd hok (by simp)
        | ok comb =>
            rw [hef] at hok
            dsimp only at hok
            unfold extendField at hef
            dsimp only at hef
            cases hk0 : alookup k0 acc with
            | none =>
                rw [hk0] at hef
                dsimp only at hef
                simp only [Except.ok.injEq] at hef
                rw [← hef] at hok
                exact ih _ hok
            | some base =>
                rw [hk0] at hef
                dsimp only at hef
                cases hm : mergeVals base v0 with
                | error e => rw [hm] at hef; exact absurd hef (by simp)
                | ok m =>
                    rw [hm] at hef
                    dsimp only at hef
                    simp only [Except.ok.injEq] at hef
                    rw [← hef] at hok
                    exact ih _ hok

theorem foldFields_mismatch_names (fields : List (String × YVal)) (combined : YVal)
    (sec ref : String) (it s r : String)
    (h : foldFields combined fields sec ref = .error (.typeMismatch it s r)) :
    s = sec ∧ r = ref := by
  induction fields generalizing combined with
  | nil => simp only [foldFields] at h; exact absurd h (by simp)
  | cons f rest ih =>
      obtain ⟨k0, v0⟩ := f
      simp only [foldFields] at h
      by_cases hext : k0 = "extends"
      · rw [if_pos hext] at h
        exact ih combined h
      · rw [if_neg hext] at h
        cases hef : extendField combined k0 v0 sec ref with
        | error e =>
            rw [hef] at h
            simp only [Except.error.injEq] at h
            unfold extendField at hef
            cases combined with
            | map cf =>
                dsimp only at hef
                cases hk0 : alookup k0 cf with
                | none => rw [hk0] at hef; dsimp only at hef; exact absurd hef (by simp)
                | some base =>
                    rw [hk0] at hef
                    dsimp only at hef
                    cases hm : mergeVals base v0 with
                    | error e2 =>
                        rw [hm] at hef
                        dsimp only at hef
                        simp only [Except.error.injEq] at hef
                        rw [← hef] at h
                        cases h
                        exact ⟨rfl, rfl⟩
                    | ok m => rw [hm] at hef; dsimp only at hef; exact absurd hef (by simp)
            | s v => dsimp only at hef; simp only [Except.error.injEq] at hef; rw [← hef] at h; cases h
            | i v => dsimp only at hef; simp only [Except.error.injEq] at hef; rw [← hef] at h; cases h
            | list l => dsimp only at hef; simp only [Except.error.injEq] at hef; rw [← hef] at h; cases h
        | ok comb =>
            rw [hef] at h
            exact ih comb h

theorem foldFields_char (fields : List (String × YVal)) (acc mf : List (String × YVal))
    (sec ref : String)
    (hnod : (fields.map Prod.fst).Nodup)
    (hok : foldFields (.map acc) fields sec ref = .ok (.map mf)) :
    (alookup "extends" mf = alookup "extends" acc) ∧
    (∀ k, k ≠ "extends" → alookup k fields = none → alookup k mf = alookup k acc) ∧
    (∀ k v, k ≠ "extends" → alookup k fields = some v → alookup k acc = none →
        alookup k mf = some v) ∧
    (∀ k v b m, k ≠ "extends" → alookup k fields = some v → alookup k acc = some b →
        mergeVals b v = .ok m → alookup k mf = some m) := by
  induction fields generalizing acc with
  | nil =>
      simp only [foldFields, Except.ok.injEq, YVal.map.injEq] at hok
      subst hok
      refine ⟨rfl, fun k _ _ => rfl, fun k v _ hv _ => absurd hv (by simp [alookup]), ?_⟩
      intro k v b m _ hv _ _
      exact absurd hv (by simp [alookup])
  | cons f rest ih =>
      obtain ⟨k0, v0⟩ := f
      simp only [List.map_cons, List.nodup_cons] at hnod
      simp only [foldFields] at hok
      by_cases hext : k0 = "extends"
      · rw [if_pos hext] at hok
        obtain ⟨ih1, ih2, ih3, ih4⟩ := ih acc hnod.2 hok
        subst hext
        refine ⟨ih1, ?_, ?_, ?_⟩
        · intro k hk hnone
          simp only [alookup] at hnone
          rw [if_neg (fun h => hk h.symm)] at hnone
          exact ih2 k hk hnone
        · intro k v hk hv hacc
          simp only [alookup] at hv
          rw [if_neg (fun h => hk h.symm)] at hv
          exact ih3 k v hk hv hacc
        · intro k v b m hk hv hacc hm
          simp only [alookup] at hv
          rw [if_neg (fun h => hk h.symm)] at hv
          exact ih4 k v b m hk hv hacc hm
      · rw [if_neg hext] at hok
        cases hef : extendField (.map acc) k0 v0 sec ref with
        | error e => rw [hef] at hok; exact absurd hok (by simp)
        | ok comb =>
            rw [hef] at hok
            dsimp only at hok
            unfold extendField at hef
            dsimp only at hef
            have hrest : alookup k0 rest = none :=
              alookup_eq_none_of_not_mem k0 rest hnod.1
            cases hk0 : alookup k0 acc with
            | none =>
                rw [hk0] at hef
                dsimp only at hef
                simp only [Except.ok.injEq] at hef
                rw [← hef] at hok
                obtain ⟨ih1, ih2, ih3, ih4⟩ := ih (setKey acc k0 v0) hnod.2 hok
                refine ⟨?_, ?_, ?_, ?_⟩
                · rw [ih1, alookup_setKey, if_neg (fun h => hext h.symm)]
                · intro k hk hnone
                  simp only [alookup] at hnone
                  by_cases hkk0 : k0 = k
                  · rw [if_pos hkk0] at hnone; exact absurd hnone (by simp)
                  · rw [if_neg hkk0] at hnone
                    rw [ih2 k hk hnone, alookup_setKey, if_neg (fun h => hkk0 h.symm)]
                · intro k v hk hv hacc
                  simp only [alookup] at hv
                  by_cases hkk0 : k0 = k
                  · rw [if_pos hkk0] at hv
                    cases hv
                    subst hkk0
                    rw [ih2 k0 hk hrest, alookup_setKey, if_pos rfl]
                  · rw [if_neg hkk0] at hv
                    refine ih3 k v hk hv ?_
                    rw [alookup_setKey, if_neg (fun h => hkk0 h.symm), hacc]
                · intro k v b m hk hv hacc hm
                  simp only [alookup] at hv
                  by_cases hkk0 : k0 = k
                  · subst hkk0
                    rw [hacc] at hk0
                    exact absurd hk0 (by simp)
                  · rw [if_neg hkk0] at hv
                    refine ih4 k v b m hk hv ?_ hm
                    rw [alookup_setKey, if_neg (fun h => hkk0 h.symm), hacc]
            | some base =>
                rw [hk0] at hef
                dsimp only at hef
                cases hmg : mergeVals base v0 with
                | error e => rw [hmg] at hef; exact absurd hef (by simp)
                | ok mrg =>
                    rw [hmg] at hef
                    dsimp only at hef
                    simp only [Except.ok.injEq] at hef
                    rw [← hef] at hok
                    obtain ⟨ih1, ih2, ih3, ih4⟩ := ih (setKey acc k0 mrg) hnod.2 hok
                    refine ⟨?_, ?_, ?_, ?_⟩
                    · rw [ih1, alookup_setKey, if_neg (fun h => hext h.symm)]
                    · intro k hk hnone
                      simp only [alookup] at hnone
                      by_cases hkk0 : k0 = k
                      · rw [if_pos hkk0] at hnone; exact absurd hnone (by simp)
                      · rw [if_neg hkk0] at hnone
                        rw [ih2 k hk hnone, alookup_setKey, if_neg (fun h => hkk0 h.symm)]
                    · intro k v hk hv hacc
                      simp only [alookup] at hv
                      by_cases hkk0 : k0 = k
                      · subst hkk0
                        rw [hacc] at hk0
                        exact absurd hk0 (by simp)
                      · rw [if_neg hkk0] at hv
                        refine ih3 k v hk hv ?_
                        rw [alookup_setKey, if_neg (fun h => hkk0 h.symm), hacc]
                    · intro k v b m hk hv hacc hm
                      simp only [alookup] at hv
                      by_cases hkk0 : k0 = k
                      · rw [if_pos hkk0] at hv
                        cases hv
                        subst hkk0
                        rw [hacc] at hk0
                        cases hk0
                        rw [hmg] at hm
                        cases hm
                        rw [ih2 k0 hk hrest, alookup_setKey, if_pos rfl]
                      · rw [if_neg hkk0] at hv
                        refine ih4 k v b m hk hv ?_ hm
                        rw [alookup_setKey, if_neg (fun h => hkk0 h.symm), hacc]

/-- C4 counterexample: a section declaring `extends: ''` (the empty
string) names a referenced section that is absent from the document,
yet resolution succeeds unchanged instead of failing: the code's
`if not referenced: continue` guard skips every falsy `extends` value
before the existence check runs. -/
theorem c4_empty_extends_ignored :
    processExtends [("foo", .map [("extends", .s "")])] =
      .ok [("foo", .map [("extends", .s "")])] ∧
    alookup "" [(("foo" : String), YVal.map [("extends", YVal.s "")])] = none :=
  ⟨rfl, rfl⟩

/-- C4 (amended): for a truthy (non-empty) `extends: B` in section `S`:
resolution of that section fails with `InvalidReference` when `B` is
absent or `B = S`; list values concatenate base-first; mapping values
form a shallow union with the extending side winning; differing runtime
types fail with a `TypeMismatch` naming the key and the two sections;
any other value from `S` replaces the base value; and on success `S`
holds the base's keys updated per-key by these rules.  (A falsy
`extends` value — empty string, 0, empty list/dict — is skipped
entirely; see the counterexample.) -/
theorem c4_extends_merge :
    (∀ (doc : List (String × YVal)) (sec : String) (fields : List (String × YVal))
        (name : String),
        alookup "extends" fields = some (.s name) → name ≠ "" →
        ((alookup name doc).isNone ∨ name = sec) →
        processOne doc sec (.map fields) = .error (.invalidRef sec)) ∧
    (∀ x y : List YVal, mergeVals (.list x) (.list y) = .ok (.list (x ++ y))) ∧
    (∀ ma mb : List (String × YVal), mergeVals (.map ma) (.map mb) = .ok (.map (unionMap ma mb))) ∧
    (∀ (ma mb : List (String × YVal)) (k : String), (mb.map Prod.fst).Nodup →
        alookup k (unionMap ma mb) =
          if (alookup k mb).isSome then alookup k mb else alookup k ma) ∧
    (∀ a b : YVal, a.tag ≠ b.tag → mergeVals a b = .error ()) ∧
    (∀ x y : String, mergeVals (.s x) (.s y) = .ok (.s y)) ∧
    (∀ x y : Int, mergeVals (.i x) (.i y) = .ok (.i y)) ∧
    (∀ (doc : List (String × YVal)) (sec : String) (fields : List (String × YVal))
        (name : String) (base0 : YVal) (it s r : String),
        alookup "extends" fields = some (.s name) → name ≠ "" → name ≠ sec →
        alookup name doc = some base0 →
        foldFields base0 fields sec name = .error (.typeMismatch it s r) →
        processOne doc sec (.map fields) = .error (.typeMismatch it s r) ∧
          s = sec ∧ r = name) ∧
    (∀ (doc : List (String × YVal)) (sec : String) (fields : List (String × YVal))
        (name : String) (bf mf : List (String × YVal)),
        alookup "extends" fields = some (.s name) → name ≠ "" → name ≠ sec →
        alookup name doc = some (.map bf) →
        (fields.map Prod.fst).Nodup →
        foldFields (.map bf) fields sec name = .ok (.map mf) →
        processOne doc sec (.map fields) = .ok (setKey doc sec (.map mf)) ∧
        (∀ k, k ≠ "extends" → alookup k fields = none → alookup k mf = alookup k bf) ∧
        (∀ k v, k ≠ "extends" → alookup k fields = some v → alookup k bf = none →
            alookup k mf = some v) ∧
        (∀ k v b m, k ≠ "extends" → alookup k fields = some v → alookup k bf = some b →
            mergeVals b v = .ok m → alookup k mf = some m)) := by
  refine ⟨?_, fun x y => rfl, fun ma mb => rfl, fun ma mb k hb => alookup_unionMap ma mb k hb,
      ?_, fun x y => rfl, fun x y => rfl, ?_, ?_⟩
  · intro doc sec fields name hext hname hbad
    simp only [processOne, hext, processRef]
    have hfal : YVal.falsy (.s name) = false := by simp [YVal.falsy, hname]
    rw [if_neg (by rw [hfal]; simp)]
    simp only [processRefVal, processRefName]
    rw [if_pos hbad]
  · intro a b hne
    cases a <;> cases b <;> first
      | exact absurd rfl hne
      | rfl
  · intro doc sec fields name base0 it s r hext hname hnsec hbase hmm
    have hnames := foldFields_mismatch_names fields base0 sec name it s r hmm
    refine ⟨?_, hnames⟩
    simp only [processOne, hext, processRef]
    have hfal : YVal.falsy (.s name) = false := by simp [YVal.falsy, hname]
    rw [if_neg (by rw [hfal]; simp)]
    simp only [processRefVal, processRefName]
    rw [if_neg (by rw [hbase]; simpa using hnsec), hbase]
    dsimp only
    rw [hmm]
  · intro doc sec fields name bf mf hext hname hnsec hbase hnod hok
    have hchar := foldFields_char fields bf mf sec name hnod hok
    refine ⟨?_, hchar.2.1, hchar.2.2.1, hchar.2.2.2⟩
    simp only [processOne, hext, processRef]
    have hfal : YVal.falsy (.s name) = false := by simp [YVal.falsy, hname]
    rw [if_neg (by rw [hfal]; simp)]
    simp only [processRefVal, processRefName]
    rw [if_neg (by rw [hbase]; simpa using hnsec), hbase]
    dsimp only
    rw [hok]

/-- The docstring example of `ExtendedYaml`: `foo` with a list, a dict
and a scalar, and `subfoo` extending it. -/
def c4doc : List (String × YVal) :=
  [("foo", .map [("bar", .list [.i 1, .i 2]), ("baz", .map [("a", .s "a")]),
    ("bat", .s "foobar")]),
   ("subfoo", .map [("extends", .s "foo"), ("bar", .list [.i 3, .i 4])])]

def c4fields : List (String × YVal) := [("extends", .s "foo"), ("bar", .list [.i 3, .i 4])]

def c4merged : List (String × YVal) :=
  [("bar", .list [.i 1, .i 2, .i 3, .i 4]), ("baz", .map [("a", .s "a")]),
   ("bat", .s "foobar")]

/-- C4 witness: the inheritance part of the merge theorem at the
docstring example — `subfoo.bar` becomes `[1, 2, 3, 4]`. -/
theorem c4_extends_merge_witness :
    processOne c4doc "subfoo" (.map c4fields) = .ok (setKey c4doc "subfoo" (.map c4merged)) :=
  (c4_extends_merge.2.2.2.2.2.2.2.2 c4doc "subfoo" c4fields "foo"
    [("bar", .list [.i 1, .i 2]), ("baz", .map [("a", .s "a")]), ("bat", .s "foobar")]
    c4merged rfl (by decide) (by decide) rfl (by decide) rfl).1

/-! ## Markdown Setext section parsing (C5)

The `MarkdownParser` class is not part of this source tree (only its
tests are, in `test_mdparser.py`); the section-detection algorithm is
modelled from the design notes. -/

/-- Modelled from the spec: the `MarkdownParser.Section` node (absent
from this source tree) — headline text, underline marker character,
inferred nesting level, and parent section (`none` for a top-level
section under the root). -/
structure MdSec where
  title : String
  marker : Char
  level : Nat
  parent : Option Nat
  deriving DecidableEq, Repr

/-- Modelled from the spec: the parser state — the arena of sections in
creation order, the current section, and each consumed line's section
back-reference in line order (`none` for document preamble lines). -/
structure MdState where
  secs : List MdSec
  current : Option Nat
  lineSecs : List (Option Nat)
  deriving DecidableEq, Repr

/-- The Setext underline character set of the spec. -/
def setextMarkers : List Char := ['-', '_', '=', '.', ':']

/-- Modelled from the spec: a Setext underline — three or more repeats
of a single character from the marker set. -/
def isUnderline (s : String) : Bool :=
  match s.data with
  | [] => false
  | c :: rest => c ∈ setextMarkers && s.length ≥ 3 && rest.all (· = c)

/-- A blank line (empty or whitespace only). -/
def isBlank (s : String) : Bool := s.data.all isPySpace

/-- Modelled from the spec: walk up the ancestor chain from the current
section; answer the first one whose underline marker matches. -/
def chainFind (secs : List MdSec) (c : Char) : Nat → Option Nat → Option Nat
  | 0, _ => none
  | _ + 1, none => none
  | fuel + 1, some i =>
      match secs[i]? with
      | none => none
      | some sec => if sec.marker = c then some i else chainFind secs c fuel sec.parent

/-- Modelled from the spec: create the section for a Setext pair.  If
an ancestor uses the same underline character the new section becomes
that ancestor's sibling (same level, same parent); otherwise it becomes
a child of the current section (level + 1), or a top-level level-1
section when there is none.  Both heading lines are stamped with the
new section. -/
def addSection (st : MdState) (title : String) (c : Char) : MdState :=
  let idx := st.secs.length
  match chainFind st.secs c (st.secs.length + 1) st.current with
  | some a =>
      match st.secs[a]? with
      | some asec =>
          ⟨st.secs ++ [⟨title, c, asec.level, asec.parent⟩], some idx,
            st.lineSecs ++ [some idx, some idx]⟩
      | none => st
  | none =>
      match st.current with
      | some cur =>
          match st.secs[cur]? with
          | some csec =>
              ⟨st.secs ++ [⟨title, c, csec.level + 1, some cur⟩], some idx,
                st.lineSecs ++ [some idx, some idx]⟩
          | none => st
      | none =>
          ⟨st.secs ++ [⟨title, c, 1, none⟩], some idx, st.lineSecs ++ [some idx, some idx]⟩

/-- Modelled from the spec: the forward pass.  A non-blank line
followed by an underline opens a section consuming both lines; any
other line is stamped with the current section and consumed. -/
def parseLines : List String → MdState → MdState
  | [], st => st
  | [_], st => ⟨st.secs, st.current, st.lineSecs ++ [st.current]⟩
  | l1 :: l2 :: rest, st =>
      if ¬ isBlank l1 ∧ isUnderline l2 then
        parseLines rest (addSection st l1 (l2.data.headD ' '))
      else
        parseLines (l2 :: rest) ⟨st.secs, st.current, st.lineSecs ++ [st.current]⟩

/-- Modelled from the spec: `MarkdownParser.from_text`, reduced to the
section tree and the line back-references. -/
def parseMd (lines : List String) : MdState := parseLines lines ⟨[], none, []⟩

/-- The input of `test_md_sections_underline`, split into lines. -/
def c5input : List String :=
  ["h1", "---", "", "foo", "", "h2", "===", "", "h2-2", "===", "", "h1", "----"]

/-- C5: parsing the underline-test document yields exactly two
top-level sections, both level 1 and titled `h1`; the first has exactly
the two level-2 children `h2` and `h2-2`; and every line's section
back-reference is the section whose heading encloses it (lines 0-4 the
first `h1`, 5-7 `h2`, 8-10 `h2-2`, 11-12 the second `h1`). -/
theorem c5_setext_sections :
    parseMd c5input =
      ⟨[⟨"h1", '-', 1, none⟩, ⟨"h2", '=', 2, some 0⟩, ⟨"h2-2", '=', 2, some 0⟩,
        ⟨"h1", '-', 1, none⟩], some 3,
       [some 0, some 0, some 0, some 0, some 0, some 1, some 1, some 1,
        some 2, some 2, some 2, some 3, some 3]⟩ ∧
    ((parseMd c5input).secs.filter (fun s => s.parent = none)).map
        (fun s => (s.title, s.level)) = [("h1", 1), ("h1", 1)] ∧
    ((parseMd c5input).secs.filter (fun s => s.parent = some 0)).map
        (fun s => (s.title, s.level)) = [("h2", 2), ("h2-2", 2)] := by
  refine ⟨by decide, by decide, by decide⟩

/-- `str.startswith(pre)`, reduced to the character list (the built-in
`String.startsWith` goes through byte positions, which the kernel
cannot evaluate). -/
def pyStartsWith (s pre : String) : Bool := pre.data.isPrefixOf s.data

/-- `str.strip()`. -/
def pyStrip (s : String) : String :=
  ⟨((s.data.dropWhile isPySpace).reverse.dropWhile isPySpace).reverse⟩

def pyDigitsAux : List Char → Nat → Option Nat
  | [], acc => some acc
  | c :: rest, acc =>
      if c.isDigit then pyDigitsAux rest (acc * 10 + (c.toNat - '0'.toNat)) else none

/-- `int(s)` on canonical integer literals (an optional sign followed
by decimal digits); `none` models the `ValueError` on anything else. -/
def pyToInt (s : String) : Option Int :=
  match s.data with
  | [] => none
  | '-' :: rest =>
      if rest.isEmpty then none else (pyDigitsAux rest 0).map (fun n => -(n : Int))
  | '+' :: rest =>
      if rest.isEmpty then none else (pyDigitsAux rest 0).map (fun n => (n : Int))
  | l => (pyDigitsAux l 0).map (fun n => (n : Int))

/-! ## `include:` and `version:` handling (`ExtendedYaml.__process_includes`) -/

/-- Failures escaping `__process_includes` (`YamlError`s plus the
Python `ValueError` from `int()` and `FileNotFoundError` from
`open()`). -/
inductive YErr where
  | versionMismatch
  | includeFromStream
  | fileNotFound (name : String)
  | badInt (line : String)
  deriving DecidableEq, Repr

/-- The state threaded through include processing: the lines written to
`dest` and the `version` attribute (absent until the first `version:`
line is seen). -/
structure IncState where
  out : List String
  version : Option Int
  deriving DecidableEq, Repr

/-- `int(line[len('version:'):].strip())` on canonical integer
literals; `none` models the `ValueError` on anything else. -/
def parseIntPy (s : String) : Option Int := pyToInt (pyStrip s)

/-- One level of `ExtendedYaml.__process_includes`, over a filesystem
mapping file names to line lists.  Lines are modelled without their
trailing newline.  `hasPath` is whether `include_path` is set (it is
the directory of the loaded file; path joining itself is a filesystem
detail outside the model).  `deeper` processes an included file's lines
one nesting level down, and `isZero` tells whether that level would be
beyond the `if level > 10: return ''` cap — the include line is still
validated (stream check, file lookup) but the file contributes
nothing.  The two-function structure is only a structural-recursion
presentation of the source's single recursive function. -/
def procIncGo (fs : List (String × List String)) (hasPath : Bool)
    (deeper : List String → IncState → Except YErr IncState) (isZero : Bool) :
    List String → IncState → Except YErr IncState
  | [], st => .ok st
  | l :: rest, st =>
      if pyStartsWith l "version:" then
        match parseIntPy (l.drop 8) with
        | none => .error (.badInt l)
        | some v =>
            match st.version with
            | some w =>
                if w ≠ v then .error .versionMismatch
                else procIncGo fs hasPath deeper isZero rest st
            | none => procIncGo fs hasPath deeper isZero rest ⟨st.out, some v⟩
      else if pyStartsWith l "include: " then
        if hasPath = false then .error .includeFromStream
        else
          match fs.lookup (pyStrip (l.drop 8)) with
          | none => .error (.fileNotFound (pyStrip (l.drop 8)))
          | some inc =>
              if isZero then procIncGo fs hasPath deeper isZero rest st
              else
                match deeper inc st with
                | .error e => .error e
                | .ok st' => procIncGo fs hasPath deeper isZero rest st'
      else procIncGo fs hasPath deeper isZero rest ⟨st.out ++ [l], st.version⟩

/-- `ExtendedYaml.__process_includes` at remaining include depth `gas`
(`gas = 10 - level`; the root call is level 0, and an include whose
file would sit at level 11 is dropped by the cap). -/
def processIncludes (fs : List (String × List String)) (hasPath : Bool) :
    Nat → List String → IncState → Except YErr IncState
  | 0 => procIncGo fs hasPath (fun _ st => .ok st) true
  | g + 1 => procIncGo fs hasPath (processIncludes fs hasPath g) false

/-- `ExtendedYaml.load_from_stream`, down to the include/version layer:
no `include_path` is configured. -/
def resolveStream (lines : List String) : Except YErr IncState :=
  processIncludes [] false 10 lines ⟨[], none⟩

/-- `ExtendedYaml.load_from_file`, down to the include/version layer:
`include_path` is the file's directory. -/
def resolveFile (fs : List (String × List String)) (lines : List String) :
    Except YErr IncState :=
  processIncludes fs true 10 lines ⟨[], none⟩

/-- One level of the include expansion alone: the depth-first sequence
of lines visited, with `version:` lines kept in place and `include:`
lines replaced by the referenced file's expansion.  Fails exactly on
the include errors of the full function. -/
def expandGo (fs : List (String × List String)) (hasPath : Bool)
    (deeper : List String → Except YErr (List String)) (isZero : Bool) :
    List String → Except YErr (List String)
  | [] => .ok []
  | l :: rest =>
      if pyStartsWith l "version:" then
        match expandGo fs hasPath deeper isZero rest with
        | .error e => .error e
        | .ok tail => .ok (l :: tail)
      else if pyStartsWith l "include: " then
        if hasPath = false then .error .includeFromStream
        else
          match fs.lookup (pyStrip (l.drop 8)) with
          | none => .error (.fileNotFound (pyStrip (l.drop 8)))
          | some inc =>
              if isZero then expandGo fs hasPath deeper isZero rest
              else
                match deeper inc with
                | .error e => .error e
                | .ok a =>
                    match expandGo fs hasPath deeper isZero rest with
                    | .error e => .error e
                    | .ok b => .ok (a ++ b)
      else
        match expandGo fs hasPath deeper isZero rest with
        | .error e => .error e
        | .ok tail => .ok (l :: tail)

/-- The include expansion at remaining depth `gas`. -/
def expandLines (fs : List (String × List String)) (hasPath : Bool) :
    Nat → List String → Except YErr (List String)
  | 0 => expandGo fs hasPath (fun _ => .ok []) true
  | g + 1 => expandGo fs hasPath (expandLines fs hasPath g) false

/-- The version scan of `__process_includes` over an already-expanded
line sequence (no `include:` lines are present in one). -/
def versionScan : List String → IncState → Except YErr IncState
  | [], st => .ok st
  | l :: rest, st =>
      if pyStartsWith l "version:" then
        match parseIntPy (l.drop 8) with
        | none => .error (.badInt l)
        | some v =>
            match st.version with
            | some w => if w ≠ v then .error .versionMismatch else versionScan rest st
            | none => versionScan rest ⟨st.out, some v⟩
      else versionScan rest ⟨st.out ++ [l], st.version⟩

/-- The `version:` values of a line sequence, in order. -/
def versionVals (lines : List String) : List Int :=
  lines.filterMap (fun l => if pyStartsWith l "version:" then parseIntPy (l.drop 8) else none)

theorem versionScan_append (a b : List String) (st : IncState) :
    versionScan (a ++ b) st =
      match versionScan a st with
      | .error e => .error e
      | .ok st' => versionScan b st' := by
  induction a generalizing st with
  | nil => simp [versionScan]
  | cons l rest ih =>
      simp only [List.cons_append, versionScan]
      by_cases hv : pyStartsWith l "version:"
      · rw [if_pos hv, if_pos hv]
        cases parseIntPy (l.drop 8) with
        | none => rfl
        | some v =>
            dsimp only
            cases st.version with
            | none => exact ih _
            | some w =>
                dsimp only
                by_cases hw : w ≠ v
                · rw [if_pos hw, if_pos hw]
                · rw [if_neg hw, if_neg hw]
                  exact ih _
      · rw [if_neg hv, if_neg hv]
        exact ih _

theorem goScan (fs : List (String × List String)) (hasPath : Bool)
    (deeper : List String → IncState → Except YErr IncState)
    (expDeeper : List String → Except YErr (List String)) (isZero : Bool)
    (hd : ∀ inc flat st, expDeeper inc = .ok flat → deeper inc st = versionScan flat st) :
    ∀ (lines flat : List String) (st : IncState),
      expandGo fs hasPath expDeeper isZero lines = .ok flat →
      procIncGo fs hasPath deeper isZero lines st = versionScan flat st := by
  intro lines
  induction lines with
  | nil =>
      intro flat st h
      simp only [expandGo, Except.ok.injEq] at h
      subst h
      simp [procIncGo, versionScan]
  | cons l rest IHlines =>
      intro flat st h
      simp only [expandGo] at h
      simp only [procIncGo]
      by_cases hv : pyStartsWith l "version:"
      · rw [if_pos hv] at h ⊢
        cases hrest : expandGo fs hasPath expDeeper isZero rest with
        | error e => rw [hrest] at h; exact absurd h (by simp)
        | ok tail =>
            rw [hrest] at h
            dsimp only at h
            simp only [Except.ok.injEq] at h
            subst h
            simp only [versionScan, if_pos hv]
            cases parseIntPy (l.drop 8) with
            | none => rfl
            | some v =>
                dsimp only
                cases st.version with
                | none => exact IHlines tail _ hrest
                | some w =>
                    dsimp only
                    by_cases hw : w ≠ v
                    · rw [if_pos hw, if_pos hw]
                    · rw [if_neg hw, if_neg hw]
                      exact IHlines tail _ hrest
      · by_cases hi : pyStartsWith l "include: "
        · rw [if_neg hv, if_pos hi] at h ⊢
          by_cases hpath : hasPath = false
          · rw [if_pos hpath] at h; exact absurd h (by simp)
          · rw [if_neg hpath] at h ⊢
            cases hlk : fs.lookup (pyStrip (l.drop 8)) with
            | none => rw [hlk] at h; exact absurd h (by simp)
            | some inc =>
                rw [hlk] at h
                dsimp only at h ⊢
                by_cases hz : isZero = true
                · rw [if_pos hz] at h ⊢
                  exact IHlines flat st h
                · rw [if_neg hz] at h ⊢
                  cases hinc : expDeeper inc with
                  | error e => rw [hinc] at h; exact absurd h (by simp)
                  | ok a =>
                      rw [hinc] at h
                      dsimp only at h
                      cases hrest : expandGo fs hasPath expDeeper isZero rest with
                      | error e => rw [hrest] at h; exact absurd h (by simp)
                      | ok b =>
                          rw [hrest] at h
                          dsimp only at h
                          simp only [Except.ok.injEq] at h
                          subst h
                          rw [hd inc a st hinc]
                          rw [versionScan_append]
                          cases hsa : versionScan a st with
                          | error e => rfl
                          | ok st' => exact IHlines b st' hrest
        · rw [if_neg hv, if_neg hi] at h ⊢
          cases hrest : expandGo fs hasPath expDeeper isZero rest with
          | error e => rw [hrest] at h; exact absurd h (by simp)
          | ok tail =>
              rw [hrest] at h
              dsimp only at h
              simp only [Except.ok.injEq] at h
              subst h
              simp only [versionScan, if_neg hv]
              exact IHlines tail _ hrest

theorem processIncludes_eq_scan (fs : List (String × List String)) (hasPath : Bool)
    (gas : Nat) :
    ∀ (lines flat : List String) (st : IncState),
      expandLines fs hasPath gas lines = .ok flat →
      processIncludes fs hasPath gas lines st = versionScan flat st := by
  induction gas with
  | zero =>
      intro lines flat st h
      simp only [expandLines] at h
      simp only [processIncludes]
      refine goScan fs hasPath _ _ true ?_ lines flat st h
      intro inc flat' st' h'
      simp only [Except.ok.injEq] at h'
      subst h'
      rfl
  | succ g ih =>
      intro lines flat st h
      simp only [expandLines] at h
      simp only [processIncludes]
      exact goScan fs hasPath _ _ false (fun inc flat' st' h' => ih inc flat' st' h')
        lines flat st h

theorem versionVals_cons (l : String) (rest : List String) :
    versionVals (l :: rest) =
      if pyStartsWith l "version:" then
        match parseIntPy (l.drop 8) with
        | some v => v :: versionVals rest
        | none => versionVals rest
      else versionVals rest := by
  simp only [versionVals, List.filterMap_cons]
  by_cases hv : pyStartsWith l "version:"
  · rw [if_pos hv, if_pos hv]
    cases parseIntPy (l.drop 8) <;> rfl
  · rw [if_neg hv, if_neg hv]

theorem versionScan_no_version (lines : List String) (st : IncState)
    (h : ∀ l ∈ lines, ¬ pyStartsWith l "version:") :
    versionScan lines st = .ok ⟨st.out ++ lines, st.version⟩ := by
  induction lines generalizing st with
  | nil => simp [versionScan]
  | cons l rest ih =>
      simp only [versionScan]
      rw [if_neg (h l (by simp))]
      rw [ih _ (fun l' hl' => h l' (by simp [hl']))]
      simp

theorem versionScan_some (lines : List String) (out : List String) (w : Int)
    (hp : ∀ l ∈ lines, pyStartsWith l "version:" → (parseIntPy (l.drop 8)).isSome) :
    (versionScan lines ⟨out, some w⟩ = .error .versionMismatch ↔
      ∃ v ∈ versionVals lines, v ≠ w) := by
  induction lines generalizing out with
  | nil => simp [versionScan, versionVals]
  | cons l rest ih =>
      simp only [versionScan]
      by_cases hv : pyStartsWith l "version:"
      · rw [if_pos hv]
        obtain ⟨v, hv2⟩ := Option.isSome_iff_exists.mp (hp l (by simp) hv)
        rw [hv2]
        dsimp only
        rw [versionVals_cons, if_pos hv, hv2]
        by_cases hw : w ≠ v
        · rw [if_pos hw]
          constructor
          · intro _
            exact ⟨v, by simp, fun h => hw h.symm⟩
          · intro _
            rfl
        · rw [if_neg hw]
          push_neg at hw
          subst hw
          rw [ih out (fun l' hl' => hp l' (by simp [hl']))]
          constructor
          · intro ⟨v', hv', hne⟩
            exact ⟨v', by simp [hv'], hne⟩
          · intro ⟨v', hv', hne⟩
            simp only [List.mem_cons] at hv'
            rcases hv' with h1 | h1
            · exact absurd h1 hne
            · exact ⟨v', h1, hne⟩
      · rw [if_neg hv]
        rw [versionVals_cons, if_neg hv]
        exact ih (out ++ [l]) (fun l' hl' => hp l' (by simp [hl']))

theorem versionScan_from_none (lines : List String) (out : List String)
    (hp : ∀ l ∈ lines, pyStartsWith l "version:" → (parseIntPy (l.drop 8)).isSome) :
    (versionScan lines ⟨out, none⟩ = .error .versionMismatch ↔
      ∃ v0 vs, versionVals lines = v0 :: vs ∧ ∃ v ∈ vs, v ≠ v0) := by
  induction lines generalizing out with
  | nil =>
      simp only [versionScan, versionVals, List.filterMap_nil]
      constructor
      · intro h; exact absurd h (by simp)
      · intro ⟨v0, vs, hcons, _⟩; exact absurd hcons (by simp)
  | cons l rest ih =>
      simp only [versionScan]
      by_cases hv : pyStartsWith l "version:"
      · rw [if_pos hv]
        obtain ⟨v, hv2⟩ := Option.isSome_iff_exists.mp (hp l (by simp) hv)
        rw [hv2]
        dsimp only
        rw [versionVals_cons, if_pos hv, hv2]
        rw [versionScan_some rest out v (fun l' hl' => hp l' (by simp [hl']))]
        constructor
        · intro ⟨v', hv', hne⟩
          exact ⟨v, versionVals rest, rfl, v', hv', hne⟩
        · intro ⟨v0, vs, hcons, v', hv', hne⟩
          simp only [List.cons.injEq] at hcons
          obtain ⟨h1, h2⟩ := hcons
          subst h1
          subst h2
          exact ⟨v', hv', hne⟩
      · rw [if_neg hv]
        rw [versionVals_cons, if_neg hv]
        exact ih (out ++ [l]) (fun l' hl' => hp l' (by simp [hl']))

/-- C8: resolution fails with a version mismatch exactly when some
`version:` line of the expanded source (main file and included files
alike, in reading order) disagrees with the first version value seen;
and a source with no `version:` line at all resolves to a state with no
version attribute (`none`, distinguishable from `some 0`). -/
theorem c8_version_mismatch_iff (fs : List (String × List String)) (hasPath : Bool)
    (gas : Nat) (lines flat : List String)
    (hexp : expandLines fs hasPath gas lines = .ok flat)
    (hp : ∀ l ∈ flat, pyStartsWith l "version:" → (parseIntPy (l.drop 8)).isSome) :
    (processIncludes fs hasPath gas lines ⟨[], none⟩ = .error .versionMismatch ↔
      ∃ v0 vs, versionVals flat = v0 :: vs ∧ ∃ v ∈ vs, v ≠ v0) ∧
    ((∀ l ∈ flat, ¬ pyStartsWith l "version:") →
      processIncludes fs hasPath gas lines ⟨[], none⟩ = .ok ⟨flat, none⟩) := by
  have hbr := processIncludes_eq_scan fs hasPath gas lines flat ⟨[], none⟩ hexp
  constructor
  · rw [hbr]
    exact versionScan_from_none flat [] hp
  · intro hnov
    rw [hbr, versionScan_no_version flat ⟨[], none⟩ hnov]
    simp

/-- C8 witness: a main stream declaring `version: 1` including a file
declaring `version: 2` fails with the mismatch error. -/
theorem c8_version_mismatch_iff_witness :
    processIncludes [("inc.yml", ["version: 2"])] true 10
      ["version: 1", "include: inc.yml"] ⟨[], none⟩ = .error .versionMismatch :=
  (c8_version_mismatch_iff [("inc.yml", ["version: 2"])] true 10
    ["version: 1", "include: inc.yml"] ["version: 1", "version: 2"]
    rfl (by decide)).1.mpr ⟨1, [2], by decide, 2, by decide, by decide⟩

theorem stream_include_fails (deeper : List String → IncState → Except YErr IncState)
    (isZero : Bool) :
    ∀ (lines : List String) (st : IncState),
      (∃ l ∈ lines, pyStartsWith l "include: " = true) →
      ∃ e, procIncGo [] false deeper isZero lines st = .error e := by
  intro lines
  induction lines with
  | nil => intro st ⟨l, hl, _⟩; exact absurd hl (by simp)
  | cons l rest ih =>
      intro st ⟨l', hl', hinc⟩
      simp only [procIncGo]
      by_cases hv : pyStartsWith l "version:"
      · rw [if_pos hv]
        have hrest : ∃ x ∈ rest, pyStartsWith x "include: " = true := by
          rcases List.mem_cons.mp hl' with h | h
          · subst h
            exact absurd hinc (by
              revert hv
              unfold pyStartsWith
              cases hld : l'.data with
              | nil => simp [List.isPrefixOf]
              | cons c cs =>
                  intro hv
                  simp only [List.isPrefixOf, hld] at hv ⊢
                  simp only [Bool.and_eq_true, beq_iff_eq] at hv
                  simp [← hv.1])
          · exact ⟨l', h, hinc⟩
        cases hpi : parseIntPy (l.drop 8) with
        | none => exact ⟨.badInt l, rfl⟩
        | some v =>
            dsimp only
            cases st.version with
            | some w =>
                dsimp only
                by_cases hw : w ≠ v
                · rw [if_pos hw]; exact ⟨.versionMismatch, rfl⟩
                · rw [if_neg hw]; exact ih st hrest
            | none => exact ih _ hrest
      · rw [if_neg hv]
        by_cases hi : pyStartsWith l "include: "
        · rw [if_pos hi]
          exact ⟨.includeFromStream, rfl⟩
        · rw [if_neg hi]
          have hrest : ∃ x ∈ rest, pyStartsWith x "include: " = true := by
            rcases List.mem_cons.mp hl' with h | h
            · subst h; exact absurd hinc hi
            · exact ⟨l', h, hinc⟩
          exact ih _ hrest

theorem stream_first_include (deeper : List String → IncState → Except YErr IncState)
    (isZero : Bool) :
    ∀ (pre : List String) (l : String) (post : List String) (st : IncState),
      pyStartsWith l "include: " = true →
      (∀ p ∈ pre, ¬ pyStartsWith p "version:" ∧ ¬ pyStartsWith p "include: ") →
      procIncGo [] false deeper isZero (pre ++ l :: post) st = .error .includeFromStream := by
  intro pre
  induction pre with
  | nil =>
      intro l post st hinc _
      simp only [List.nil_append, procIncGo]
      have hv : ¬ pyStartsWith l "version:" := by
        revert hinc
        unfold pyStartsWith
        cases hld : l.data with
        | nil => simp [List.isPrefixOf]
        | cons c cs =>
            intro hinc
            simp only [List.isPrefixOf, Bool.and_eq_true, beq_iff_eq] at hinc ⊢
            simp [← hinc.1]
      rw [if_neg hv, if_pos hinc]
      rfl
  | cons p rest ih =>
      intro l post st hinc hpre
      simp only [List.cons_append, procIncGo]
      rw [if_neg (hpre p (by simp)).1, if_neg (hpre p (by simp)).2]
      exact ih l post _ hinc (fun p' hp' => hpre p' (by simp [hp']))

theorem withPath_no_stream_error (fs : List (String × List String))
    (deeper : List String → IncState → Except YErr IncState) (isZero : Bool)
    (hd : ∀ inc st, deeper inc st ≠ .error .includeFromStream) :
    ∀ (lines : List String) (st : IncState),
      procIncGo fs true deeper isZero lines st ≠ .error .includeFromStream := by
  intro lines
  induction lines with
  | nil => intro st h; exact absurd h (by simp [procIncGo])
  | cons l rest ih =>
      intro st h
      simp only [procIncGo] at h
      by_cases hv : pyStartsWith l "version:"
      · rw [if_pos hv] at h
        cases hpi : parseIntPy (l.drop 8) with
        | none => rw [hpi] at h; exact absurd h (by simp)
        | some v =>
            rw [hpi] at h
            obtain ⟨sout, sver⟩ := st
            cases sver with
            | some w =>
                dsimp only at h
                by_cases hw : w ≠ v
                · rw [if_pos hw] at h; exact absurd h (by simp)
                · rw [if_neg hw] at h; exact ih _ h
            | none =>
                dsimp only at h
                exact ih _ h
      · rw [if_neg hv] at h
        by_cases hi : pyStartsWith l "include: "
        · rw [if_pos hi] at h
          rw [if_neg (by simp)] at h
          cases hlk : fs.lookup (pyStrip (l.drop 8)) with
          | none => rw [hlk] at h; exact absurd h (by simp)
          | some inc =>
              rw [hlk] at h
              dsimp only at h
              by_cases hz : isZero = true
              · rw [if_pos hz] at h; exact ih st h
              · rw [if_neg hz] at h
                cases hdp : deeper inc st with
                | error e =>
                    rw [hdp] at h
                    dsimp only at h
                    cases h
                    exact hd inc st hdp
                | ok st' =>
                    rw [hdp] at h
                    dsimp only at h
                    exact ih st' h
        · rw [if_neg hi] at h
          exact ih _ h

theorem processIncludes_no_stream_error (fs : List (String × List String)) (gas : Nat) :
    ∀ (lines : List String) (st : IncState),
      processIncludes fs true gas lines st ≠ .error .includeFromStream := by
  induction gas with
  | zero =>
      intro lines st
      simp only [processIncludes]
      exact withPath_no_stream_error fs _ true (fun inc st h => by cases h) lines st
  | succ g ih =>
      intro lines st
      simp only [processIncludes]
      exact withPath_no_stream_error fs _ false (fun inc st h => ih inc st h) lines st

/-- C9: a text stream (no `include_path` configured, as in
`load_from_stream`) containing a line that begins with `include: `
never resolves — some error is raised (first conjunct), and when the
include line is the first directive reached the error is exactly the
`Cannot include from a text stream` one (second conjunct) — while
loading with an include path (as `load_from_file` sets up) can never
produce that error (third conjunct). -/
theorem c9_stream_include_error :
    (∀ lines : List String, (∃ l ∈ lines, pyStartsWith l "include: " = true) →
        ∃ e, resolveStream lines = .error e) ∧
    (∀ (pre : List String) (l : String) (post : List String),
        pyStartsWith l "include: " = true →
        (∀ p ∈ pre, ¬ pyStartsWith p "version:" ∧ ¬ pyStartsWith p "include: ") →
        resolveStream (pre ++ l :: post) = .error .includeFromStream) ∧
    (∀ (fs : List (String × List String)) (gas : Nat) (lines : List String) (st : IncState),
        processIncludes fs true gas lines st ≠ .error .includeFromStream) := by
  refine ⟨?_, ?_, ?_⟩
  · intro lines hmem
    exact stream_include_fails _ false lines ⟨[], none⟩ hmem
  · intro pre l post hinc hpre
    exact stream_first_include _ false pre l post ⟨[], none⟩ hinc hpre
  · intro fs gas lines st
    exact processIncludes_no_stream_error fs gas lines st

/-- C9 witness: a stream whose second line is an include directive
fails with the `Cannot include from a text stream` error. -/
theorem c9_stream_include_error_witness :
    resolveStream (["foo: bar"] ++ "include: other.yml" :: []) =
      .error .includeFromStream :=
  c9_stream_include_error.2.1 ["foo: bar"] "include: other.yml" []
    (by decide) (by decide)

/-! ## Cursor/viewport reconciliation (`UjiView._update_cursor`, `_update_view`) -/

/-- The mutable cursor/viewport pair of a `UjiView` session.  `n` is
`len(self.lines)` and `h` is `self.window.height` in what follows. -/
structure St where
  cursor : Int
  view : Int
  deriving DecidableEq, Repr

/-- The clamp at the top of `_update_cursor`. -/
def clampCursor (n p : Int) : Int := if p < 0 then 0 else if p ≥ n then n - 1 else p

/-- The clamp at the top of `_update_view`; the upper clamp can itself
yield a negative position and is not re-checked. -/
def clampView (n h p : Int) : Int :=
  if p < 0 then 0 else if p > n - h / 2 then n - h / 2 else p

/-- The body of `_update_cursor`: clamp, early return when unchanged,
assign, then re-center the view (`next` is `_update_view` one call
deeper). -/
def ucStep (n h : Int) (next : Int → St → St) (p : Int) (s : St) : St :=
  if clampCursor n p = s.cursor then s
  else if clampCursor n p ≥ s.view + h - 1 then
    next (s.view + h / 2) ⟨clampCursor n p, s.view⟩
  else if clampCursor n p < s.view then
    next (s.view - h / 2) ⟨clampCursor n p, s.view⟩
  else ⟨clampCursor n p, s.view⟩

/-- The body of `_update_view`: clamp, early return when unchanged,
assign, then pull the cursor back inside (`next` is `_update_cursor`
one call deeper). -/
def uvStep (n h : Int) (next : Int → St → St) (p : Int) (s : St) : St :=
  if clampView n h p = s.view then s
  else if s.cursor < clampView n h p then
    next (clampView n h p) ⟨s.cursor, clampView n h p⟩
  else if s.cursor > clampView n h p + h then
    next (clampView n h p + h) ⟨s.cursor, clampView n h p⟩
  else ⟨s.cursor, clampView n h p⟩

/-- The mutual recursion of `_update_cursor` (`tag = true`) and
`_update_view` (`tag = false`), presented with an explicit recursion
depth: `fuel = 0` returns the state unchanged, and the invariant
lemmas below show that depth 4 is never exhausted from a reachable
state, so the entry points with fuel 4 agree with the unbounded
source recursion. -/
def reconcile (n h : Int) : Nat → Bool → Int → St → St
  | 0, _, _, s => s
  | fuel + 1, true, p, s => ucStep n h (reconcile n h fuel false) p s
  | fuel + 1, false, p, s => uvStep n h (reconcile n h fuel true) p s

/-- `UjiView._update_cursor`. -/
def updateCursor (n h p : Int) (s : St) : St := reconcile n h 4 true p s

/-- `UjiView._update_view`. -/
def updateView (n h p : Int) (s : St) : St := reconcile n h 4 false p s

/-- The session-state invariant: the cursor is a valid line index and
sits in the closed window `[view, view + h]`; the final conjunct is an
auxiliary lower bound on the view needed for induction. -/
def InvFull (n h : Int) (s : St) : Prop :=
  0 ≤ s.cursor ∧ s.cursor < n ∧ s.view ≤ s.cursor ∧ s.cursor ≤ s.view + h ∧
    1 - h / 2 ≤ s.view

theorem reconcile_uc (n h : Int) (fuel : Nat) (p : Int) (s : St) :
    reconcile n h (fuel + 1) true p s = ucStep n h (reconcile n h fuel false) p s := rfl

theorem reconcile_uv (n h : Int) (fuel : Nat) (p : Int) (s : St) :
    reconcile n h (fuel + 1) false p s = uvStep n h (reconcile n h fuel true) p s := rfl

theorem recF (n h : Int) (fuel : Nat) (c w : Int)
    (hh : 2 ≤ h) (hn : 1 ≤ n) (h0 : 0 ≤ w) (h1 : w ≤ n - 1) (h2 : 1 - h / 2 ≤ w)
    (h3 : c < w) :
    InvFull n h (reconcile n h (fuel + 1) true w ⟨c, w⟩) := by
  rw [reconcile_uc]
  unfold ucStep clampCursor
  dsimp only
  split_ifs <;> (simp only [InvFull]; omega)

theorem recD (n h : Int) (fuel : Nat) (w : Int)
    (hh : 2 ≤ h) (hn : 1 ≤ n) (h1 : 1 - h / 2 ≤ w) (h2 : w + h ≤ n - 2) :
    InvFull n h (reconcile n h (fuel + 1) false (w + h / 2) ⟨w + h, w⟩) := by
  rw [reconcile_uv]
  unfold uvStep clampView
  dsimp only
  split_ifs <;> (simp only [InvFull]; omega)

theorem recC (n h : Int) (fuel : Nat) (c w : Int)
    (hh : 2 ≤ h) (hn : 1 ≤ n) (h0 : 0 ≤ c) (h1 : c ≤ n - 1) (h2 : c > w + h)
    (h3 : 1 - h / 2 ≤ w) :
    InvFull n h (reconcile n h (fuel + 2) true (w + h) ⟨c, w⟩) := by
  rw [show fuel + 2 = (fuel + 1) + 1 from rfl, reconcile_uc]
  unfold ucStep
  dsimp only
  have hcl : clampCursor n (w + h) = w + h := by unfold clampCursor; split_ifs <;> omega
  rw [hcl]
  rw [if_neg (by omega : ¬ (w + h = c))]
  rw [if_pos (by omega : w + h ≥ w + h - 1)]
  exact recD n h fuel w hh hn h3 (by omega)

theorem recA (n h : Int) (fuel : Nat) (c v : Int)
    (hh : 2 ≤ h) (hn : 1 ≤ n) (h0 : 0 ≤ c) (h1 : c < n) (h2 : c ≥ v + h - 1)
    (h3 : 1 - h / 2 ≤ v) (h4 : v ≤ n - 1) :
    InvFull n h (reconcile n h (fuel + 3) false (v + h / 2) ⟨c, v⟩) := by
  rw [show fuel + 3 = (fuel + 2) + 1 from rfl, reconcile_uv]
  unfold uvStep clampView
  dsimp only
  split_ifs <;> first
    | (simp only [InvFull]; omega)
    | exact recC n h fuel c (v + h / 2) hh hn h0 (by omega) (by omega) (by omega)

theorem recB (n h : Int) (fuel : Nat) (c v : Int)
    (hh : 2 ≤ h) (hn : 1 ≤ n) (h0 : 0 ≤ c) (h1 : c < n) (h2 : c < v)
    (h3 : 1 - h / 2 ≤ v) (h4 : v ≤ n - 1) :
    InvFull n h (reconcile n h (fuel + 3) false (v - h / 2) ⟨c, v⟩) := by
  rw [show fuel + 3 = (fuel + 2) + 1 from rfl, reconcile_uv]
  unfold uvStep clampView
  dsimp only
  split_ifs <;> first
    | (simp only [InvFull]; omega)
    | exact recF n h (fuel + 1) c (v - h / 2) hh hn (by omega) (by omega) (by omega) (by omega)

theorem recEuc (n h : Int) (fuel : Nat) (p : Int) (s : St)
    (hh : 2 ≤ h) (hn : 1 ≤ n) (hs : InvFull n h s) :
    InvFull n h (reconcile n h (fuel + 4) true p s) := by
  obtain ⟨c, v⟩ := s
  simp only [InvFull] at hs
  rw [show fuel + 4 = (fuel + 3) + 1 from rfl, reconcile_uc]
  unfold ucStep clampCursor
  dsimp only
  split_ifs <;> first
    | (simp only [InvFull]; omega)
    | exact recA n h fuel _ v hh hn (by omega) (by omega) (by omega) (by omega) (by omega)
    | exact recB n h fuel _ v hh hn (by omega) (by omega) (by omega) (by omega) (by omega)

theorem recEuv (n h : Int) (fuel : Nat) (s : St)
    (hh : 2 ≤ h) (hn : 1 ≤ n) (hs : InvFull n h s) :
    InvFull n h (reconcile n h (fuel + 4) false (s.view + h) s) := by
  obtain ⟨c, v⟩ := s
  simp only [InvFull] at hs
  rw [show fuel + 4 = (fuel + 3) + 1 from rfl, reconcile_uv]
  unfold uvStep clampView
  dsimp only
  split_ifs <;> first
    | (simp only [InvFull]; omega)
    | exact recF n h (fuel + 2) c _ hh hn (by omega) (by omega) (by omega) (by omega)

/-- `UjiView.next`: first checkbox line strictly after the cursor. -/
def findNextCb (lines : List String) (c : Int) : Option Nat :=
  match (lines.drop (c + 1).toNat).findIdx? is_checkbox with
  | some i => some ((c + 1).toNat + i)
  | none => none

/-- `UjiView.previous`: last checkbox line strictly before the cursor. -/
def findPrevCb (lines : List String) (c : Int) : Option Nat :=
  match (lines.take c.toNat).reverse.findIdx? is_checkbox with
  | some i => some ((lines.take c.toNat).length - 1 - i)
  | none => none

/-- The cursor-move, page and checkbox-jump operations of the claim. -/
inductive ViewOp where
  | down
  | up
  | pageDown
  | next
  | prev
  deriving DecidableEq, Repr

/-- One keypress: `cursor_down`, `cursor_up`, `page_down`, `next`,
`previous` of `UjiView`. -/
def viewStep (lines : List String) (h : Int) : ViewOp → St → St
  | .down, s => updateCursor (lines.length : Int) h (s.cursor + 1) s
  | .up, s => updateCursor (lines.length : Int) h (s.cursor - 1) s
  | .pageDown, s => updateView (lines.length : Int) h (s.view + h) s
  | .next, s =>
      match findNextCb lines s.cursor with
      | some i => updateCursor (lines.length : Int) h (i : Int) s
      | none => s
  | .prev, s =>
      match findPrevCb lines s.cursor with
      | some i => updateCursor (lines.length : Int) h (i : Int) s
      | none => s

/-- A whole session: a finite sequence of operations. -/
def runOps (lines : List String) (h : Int) : List ViewOp → St → St
  | [], s => s
  | op :: rest, s => runOps lines h rest (viewStep lines h op s)

/-- The initial state of `UjiView.__init__`:
`view_offset = 0`, `cursor_offset = 0`. -/
def initSt : St := ⟨0, 0⟩

theorem viewStep_inv (lines : List String) (h : Int) (op : ViewOp) (s : St)
    (hh : 2 ≤ h) (hn : 1 ≤ (lines.length : Int))
    (hs : InvFull (lines.length : Int) h s) :
    InvFull (lines.length : Int) h (viewStep lines h op s) := by
  cases op with
  | down => exact recEuc (lines.length : Int) h 0 (s.cursor + 1) s hh hn hs
  | up => exact recEuc (lines.length : Int) h 0 (s.cursor - 1) s hh hn hs
  | pageDown => exact recEuv (lines.length : Int) h 0 s hh hn hs
  | next =>
      simp only [viewStep]
      cases findNextCb lines s.cursor with
      | some i => exact recEuc (lines.length : Int) h 0 (i : Int) s hh hn hs
      | none => exact hs
  | prev =>
      simp only [viewStep]
      cases findPrevCb lines s.cursor with
      | some i => exact recEuc (lines.length : Int) h 0 (i : Int) s hh hn hs
      | none => exact hs

theorem runOps_inv (lines : List String) (h : Int) (ops : List ViewOp) (s : St)
    (hh : 2 ≤ h) (hn : 1 ≤ (lines.length : Int))
    (hs : InvFull (lines.length : Int) h s) :
    InvFull (lines.length : Int) h (runOps lines h ops s) := by
  induction ops generalizing s with
  | nil => exact hs
  | cons op rest ih =>
      exact ih (viewStep lines h op s) (viewStep_inv lines h op s hh hn hs)

/-- C6 counterexample: with window height 4 and a buffer of 8 lines
whose only checkbox is line 6, the single operation `next` (a
checkbox jump) moves the cursor to line 6 and re-centers the view to
line 2 — the cursor then sits at `view_offset + height`, one row past
the rendered window `[view_offset, view_offset + height)`, because
`_update_view` only pulls the cursor back when it is *strictly*
greater than `view_offset + height`. -/
theorem c6_cursor_leaves_window :
    runOps ["a", "b", "c", "d", "e", "f", "- [ ] g", "h"] 4 [ViewOp.next] initSt =
      ⟨6, 2⟩ ∧
    ¬ ((runOps ["a", "b", "c", "d", "e", "f", "- [ ] g", "h"] 4 [ViewOp.next] initSt).cursor <
        (runOps ["a", "b", "c", "d", "e", "f", "- [ ] g", "h"] 4 [ViewOp.next] initSt).view + 4) := by
  refine ⟨by decide, by decide⟩

/-- C6 (amended): for every non-empty line buffer, every window height
of at least two rows, and every finite sequence of cursor-move, page
and next/previous-checkbox operations from the initial state, the
cursor stays a valid line index in `[0, len(lines))` and lies in the
**closed** window `[view_offset, view_offset + height]` — the cursor
can reach the row one past the rendered slice (see the
counterexample), but never further. -/
theorem c6_cursor_viewport (lines : List String) (h : Int) (ops : List ViewOp)
    (hh : 2 ≤ h) (hn : 1 ≤ (lines.length : Int)) :
    0 ≤ (runOps lines h ops initSt).cursor ∧
    (runOps lines h ops initSt).cursor < (lines.length : Int) ∧
    (runOps lines h ops initSt).view ≤ (runOps lines h ops initSt).cursor ∧
    (runOps lines h ops initSt).cursor ≤ (runOps lines h ops initSt).view + h := by
  have hinit : InvFull (lines.length : Int) h initSt := by
    simp only [InvFull, initSt]
    refine ⟨by omega, by omega, by omega, by omega, by omega⟩
  have hinv := runOps_inv lines h ops initSt hh hn hinit
  exact ⟨hinv.1, hinv.2.1, hinv.2.2.1, hinv.2.2.2.1⟩

/-- C6 witness: three lines, height 5, a page-down followed by two
cursor-downs. -/
theorem c6_cursor_viewport_witness :
    0 ≤ (runOps ["a", "b", "c"] 5 [ViewOp.pageDown, ViewOp.down, ViewOp.down] initSt).cursor ∧
    (runOps ["a", "b", "c"] 5 [ViewOp.pageDown, ViewOp.down, ViewOp.down] initSt).cursor <
      ((["a", "b", "c"] : List String).length : Int) ∧
    (runOps ["a", "b", "c"] 5 [ViewOp.pageDown, ViewOp.down, ViewOp.down] initSt).view ≤
      (runOps ["a", "b", "c"] 5 [ViewOp.pageDown, ViewOp.down, ViewOp.down] initSt).cursor ∧
    (runOps ["a", "b", "c"] 5 [ViewOp.pageDown, ViewOp.down, ViewOp.down] initSt).cursor ≤
      (runOps ["a", "b", "c"] 5 [ViewOp.pageDown, ViewOp.down, ViewOp.down] initSt).view + 5 :=
  c6_cursor_viewport ["a", "b", "c"] 5 [ViewOp.pageDown, ViewOp.down, ViewOp.down]
    (by omega) (by decide)
